import Mathlib

/-!
# SYSC4001 A3P2: the marking session of `Part_B` (and the unsynchronised `Part_A`)

A shallow embedding of the C sources.  A `char` buffer is a list of bytes
(`Nat`, taken modulo 256 where the code does arithmetic on it); the C string
held by a buffer is the run of bytes before its first NUL.  Files are byte
lists, `fopen` failing is `none`.  `int` values are mathematical integers
(signed overflow is undefined in C and no index of a session gets near it).
-/

namespace A3P2

/-! ## Constants and the shared structure -/

def MAX_RUBRIC_LINES : Nat := 5
def MAX_LINE_LEN : Nat := 128
def MAX_EXAMS : Nat := 64
def STUDENT_LEN : Nat := 16

def Q_UNTOUCHED : Int := 0
def Q_PROGRESSING : Int := 1
def Q_CORRECTED : Int := 2

/-- A `char` array: its bytes, in order. -/
abbrev Buf := List Nat

/-- The struct `SharedData` of the sources. -/
structure SharedData where
  rubric : List Buf
  current_student : Buf
  question_state : List Int
  current_exam_index : Int
  terminate : Int
deriving DecidableEq

/-! ## C strings in buffers -/

/-- The C string stored in a buffer: the bytes before the first NUL. -/
def cstr : Buf → List Nat
  | [] => []
  | c :: rest => if c = 0 then [] else c :: cstr rest

/-- The libc `strlen`. -/
def strlen (b : Buf) : Nat := (cstr b).length

/-- The libc `strchr`: offset of the first occurrence of `c` in the string
held by the buffer, `none` for a NULL result. -/
def strchr : Buf → Nat → Option Nat
  | [], _ => none
  | x :: rest, c =>
    if x = c then some 0
    else if x = 0 then none
    else (strchr rest c).map (· + 1)

/-! ## The selection scan of `ta` (Part_B lines 245-256, Part_A lines 190-204) -/

/-- The `for` loop of the scan from index `q` on, `fuel` iterations left.
Returns the table, `picked_q` and `all_done`. -/
def select_loop (qs : List Int) (q : Nat) (all_done : Int) : Nat → List Int × Int × Int
  | 0 => (qs, -1, all_done)
  | fuel + 1 =>
    if qs.getD q 0 = Q_UNTOUCHED then
      (qs.set q Q_PROGRESSING, (q : Int), 0)
    else
      select_loop qs (q + 1) (if qs.getD q 0 ≠ Q_CORRECTED then 0 else all_done) fuel

/-- The scan: `all_done = 1; for (q = 0; q < MAX_RUBRIC_LINES; q++) ...`, with
`picked_q` initialised to `-1`. -/
def select_scan (qs : List Int) : List Int × Int × Int :=
  select_loop qs 0 1 MAX_RUBRIC_LINES

/-! ## Reading and writing text (libc `fgets`, `strncpy`, `atoi`) -/

/-- The first line of a text, without its newline. -/
def first_line : List Nat → List Nat
  | [] => []
  | c :: rest => if c = 10 then [] else c :: first_line rest

/-- The characters one `fgets` call consumes when it may store at most `k`
of them: it stops after a newline, at end of file, or when `k` are read. -/
def fgets_take : Nat → List Nat → List Nat
  | 0, _ => []
  | _ + 1, [] => []
  | k + 1, c :: rest => if c = 10 then [c] else c :: fgets_take k rest

/-- Writing the characters `s` and their terminating NUL at the start of a
buffer; the bytes behind the terminator keep their old value. -/
def store (buf : Buf) (s : List Nat) : Buf :=
  s ++ 0 :: buf.drop (s.length + 1)

/-- The libc `fgets(buf, n, f)` on the unread rest of a file: `none` is the
NULL result (end of file before any character), otherwise the filled buffer
and the rest of the file that is still unread. -/
def fgets (buf : Buf) (n : Nat) (stream : List Nat) : Option (Buf × List Nat) :=
  match fgets_take (n - 1) stream with
  | [] => none
  | c :: cs => some (store buf (c :: cs), stream.drop (c :: cs).length)

/-- The newline stripping that follows each `fgets` in the sources:
`len = strlen(buf); if (len > 0 && buf[len - 1] == '\n') buf[len - 1] = '\0';` -/
def strip_newline (b : Buf) : Buf :=
  if strlen b > 0 ∧ b.getD (strlen b - 1) 0 = 10 then b.set (strlen b - 1) 0 else b

/-- The libc `strncpy(dest, src, n)`: the first `n` characters of the string
in `src`, padded with NULs up to `n` bytes; the rest of `dest` is kept. -/
def strncpy (dest src : Buf) (n : Nat) : Buf :=
  (cstr src).take n ++ List.replicate (n - ((cstr src).take n).length) 0 ++ dest.drop n

def isspace (c : Nat) : Bool := c = 32 || (9 ≤ c && c ≤ 13)

def isdigit (c : Nat) : Bool := 48 ≤ c && c ≤ 57

/-- The decimal value of the leading digits, accumulated left to right. -/
def atoi_digits : List Nat → Int → Int
  | [], acc => acc
  | c :: rest, acc => if isdigit c then atoi_digits rest (acc * 10 + ((c : Int) - 48)) else acc

/-- Conversion of a `long` to `int`: the low 32 bits, two's complement. -/
def wrap32 (v : Int) : Int := (v + 2 ^ 31) % 2 ^ 32 - 2 ^ 31

/-- The libc `atoi`: leading white space, an optional sign, then the leading
decimal digits; no digits give `0`.  The at most 15 characters a student
identifier has never overflow `long`; the result is converted to `int`. -/
def atoi (b : Buf) : Int :=
  match (cstr b).dropWhile isspace with
  | 45 :: rest => wrap32 (- atoi_digits rest 0)
  | 43 :: rest => wrap32 (atoi_digits rest 0)
  | rest => wrap32 (atoi_digits rest 0)

/-! ## `load_rubric`, `save_rubric`, `load_exam` -/

/-- The `for` loop of `load_rubric` from line `i` on, `fuel` iterations left,
reading from the unread rest `stream` of the rubric file. -/
def load_rubric_loop (rubric : List Buf) (stream : List Nat) (i : Nat) : Nat → List Buf
  | 0 => rubric
  | fuel + 1 =>
    match fgets (rubric.getD i []) MAX_LINE_LEN stream with
    | none =>
      load_rubric_loop (rubric.set i ((rubric.getD i []).set 0 0)) stream (i + 1) fuel
    | some (b, rest) =>
      load_rubric_loop (rubric.set i (strip_newline b)) rest (i + 1) fuel

/-- The function `load_rubric`; `file` is the content of the rubric file,
`none` when it cannot be opened. -/
def load_rubric (file : Option (List Nat)) (sh : SharedData) : Int × SharedData :=
  match file with
  | none => (-1, sh)
  | some text => (0, { sh with rubric := load_rubric_loop sh.rubric text 0 MAX_RUBRIC_LINES })

/-- The `for` loop of `save_rubric`: `fprintf(f, "%s\n", sh->rubric[i])`
appended to what was written so far. -/
def save_rubric_loop (rubric : List Buf) (out : List Nat) (i : Nat) : Nat → List Nat
  | 0 => out
  | fuel + 1 => save_rubric_loop rubric (out ++ (cstr (rubric.getD i []) ++ [10])) (i + 1) fuel

/-- The function `save_rubric`: its return value and the text written to the
rubric file (`none`, and nothing written, when the file cannot be opened for
writing).  The shared structure is only read. -/
def save_rubric (writable : Bool) (sh : SharedData) : Int × Option (List Nat) :=
  if writable then (0, some (save_rubric_loop sh.rubric [] 0 MAX_RUBRIC_LINES))
  else (-1, none)

/-- A text file made of the given lines, each followed by its newline. -/
def render : List (List Nat) → List Nat
  | [] => []
  | l :: rest => l ++ 10 :: render rest

/-- The loop `for (i = 0; i < MAX_RUBRIC_LINES; i++) question_state[i] = Q_UNTOUCHED`. -/
def reset_questions (qs : List Int) (i : Nat) : Nat → List Int
  | 0 => qs
  | fuel + 1 => reset_questions (qs.set i Q_UNTOUCHED) (i + 1) fuel

/-- The function `load_exam`.  `exams` lists, per configured exam path, the
content of that file, `none` when it cannot be opened; `num_exams` is the
length of the list.  The local `buf` starts with arbitrary content, modelled
as NULs: `fgets` overwrites it up to the terminator and nothing behind the
terminator is ever read. -/
def load_exam (exams : List (Option (List Nat))) (sh : SharedData) (exam_index : Int) :
    Int × SharedData :=
  if exam_index < 0 ∨ exam_index ≥ (exams.length : Int) then
    (-1, { sh with terminate := 1 })
  else
    match exams.getD exam_index.toNat none with
    | none => (-1, { sh with terminate := 1 })
    | some file =>
      match fgets (List.replicate STUDENT_LEN 0) STUDENT_LEN file with
      | none => (-1, { sh with terminate := 1 })
      | some (buf, _) =>
        let student := (strncpy sh.current_student (strip_newline buf) (STUDENT_LEN - 1)).set
          (STUDENT_LEN - 1) 0
        let sh1 : SharedData := { sh with
          current_student := student,
          question_state := reset_questions sh.question_state 0 MAX_RUBRIC_LINES }
        if atoi sh1.current_student = 9999 then (0, { sh1 with terminate := 1 }) else (0, sh1)

/-! ## The rubric review of `ta` (Part_B lines 208-228, Part_A lines 162-181) -/

/-- The body of `if (rand() % 4 == 0)`: `comma = strchr(line, ',')`, and when
`comma && comma[1] != '\0'` the byte `comma[1]` is incremented. -/
def correct_line (line : Buf) : Buf :=
  match strchr line 44 with
  | none => line
  | some i =>
    if line.getD (i + 1) 0 ≠ 0 then line.set (i + 1) ((line.getD (i + 1) 0 + 1) % 256)
    else line

/-- One iteration of the review loop on a line, `r` being what `rand()`
returns for the decision: empty lines are skipped. -/
def review_line (line : Buf) (r : Nat) : Buf :=
  if line.getD 0 0 = 0 then line
  else if r % 4 = 0 then correct_line line
  else line

/-! ## The exam advance of `ta` (Part_B lines 291-303) -/

/-- The section between `sem_wait_one(sem_exam)` and `sem_signal_one(sem_exam)`:
the new shared structure and whether the worker leaves its loop (`break`). -/
def ta_advance (exams : List (Option (List Nat))) (sh : SharedData) : SharedData × Bool :=
  let next_exam := sh.current_exam_index + 1
  if next_exam ≥ (exams.length : Int) then
    ({ sh with terminate := 1 }, true)
  else
    ((load_exam exams { sh with current_exam_index := next_exam } next_exam).2, false)

/-! ## The worker `ta` of Part_B as a transition system

Every semaphore operation, every test of `sh->terminate` and every section
between two semaphore operations is a transition of its own; a session is an
interleaving of transitions of its workers. -/

/-- Control points of `ta` (Part_B), named after what the worker does next. -/
inductive PC where
  /-- line 198, `if (sh->terminate)` at the head of the outer loop -/
  | checkTerm
  /-- line 204, `sem_wait_one(sem_rubric)` -/
  | waitRubric
  /-- lines 208-228, one iteration (or the exit test) of the review loop -/
  | review
  /-- line 231, `save_rubric(rubric_path, sh)` -/
  | saveRubric
  /-- lines 232-236, `sem_signal_one(sem_rubric)` and `all_done = 0` -/
  | signalRubric
  /-- lines 238-240, the test of the inner `while` and `picked_q = -1` -/
  | innerTest
  /-- line 243, `sem_wait_one(sem_question)` -/
  | waitSelect
  /-- lines 245-256, the selection scan -/
  | scan
  /-- line 258, `sem_signal_one(sem_question)` -/
  | signalSelect
  /-- lines 261-271, `if (picked_q == -1) break;` and the marking delay -/
  | afterScan
  /-- line 274, `sem_wait_one(sem_question)` -/
  | waitMark
  /-- line 275, `sh->question_state[picked_q] = Q_CORRECTED` -/
  | markCorrected
  /-- line 276, `sem_signal_one(sem_question)` -/
  | signalMark
  /-- line 282, `if (sh->terminate)` behind the inner loop -/
  | checkTermMarked
  /-- line 288, `if (all_done && !sh->terminate)` -/
  | advTest
  /-- line 289, `sem_wait_one(sem_exam)` -/
  | waitExam
  /-- lines 291-302, `next_exam`, the exhaustion test, the index update -/
  | advRead
  /-- line 303, `load_exam(sh, next_exam)` -/
  | advLoad
  /-- lines 298-299, `sem_signal_one(sem_exam); break;` -/
  | signalExamBreak
  /-- line 305, `sem_signal_one(sem_exam)` -/
  | signalExam
  /-- line 306, `if (sh->terminate)` behind the load -/
  | checkTermLoaded
  /-- behind the outer loop -/
  | finished
deriving DecidableEq

/-- The local variables of one `ta` process. -/
structure Worker where
  pc : PC
  q : Nat
  picked_q : Int
  all_done : Int
  next_exam : Int
deriving DecidableEq

/-- What does not change during a session: the exam files, and whether the
rubric file can be opened for writing. -/
structure Env where
  exams : List (Option (List Nat))
  rubric_writable : Bool

/-- A session: the shared memory segment, the three semaphores, the rubric
file on disk and the workers. -/
structure Session where
  sh : SharedData
  sem_rubric : Nat
  sem_question : Nat
  sem_exam : Nat
  rubric_file : List Nat
  workers : List Worker
deriving DecidableEq

/-- The function `sem_wait_one` on the value of a semaphore: the decremented
value, `none` while the caller is blocked in `semop`. -/
def sem_wait_one (value : Nat) : Option Nat :=
  if value > 0 then some (value - 1) else none

/-- The function `sem_signal_one` on the value of a semaphore. -/
def sem_signal_one (value : Nat) : Nat := value + 1

/-- One transition of a worker; `r` is what `rand()` returns where the
transition draws a number.  `none`: the worker is blocked in `semop`, or has
left its loop. -/
def ta_step (env : Env) (s : Session) (w : Worker) (r : Nat) : Option (Session × Worker) :=
  match w.pc with
  | .checkTerm =>
    if s.sh.terminate ≠ 0 then some (s, { w with pc := .finished })
    else some (s, { w with pc := .waitRubric })
  | .waitRubric =>
    match sem_wait_one s.sem_rubric with
    | some v => some ({ s with sem_rubric := v }, { w with pc := .review, q := 0 })
    | none => none
  | .review =>
    if w.q < MAX_RUBRIC_LINES then
      some ({ s with sh := { s.sh with
                rubric := s.sh.rubric.set w.q (review_line (s.sh.rubric.getD w.q []) r) } },
            { w with q := w.q + 1 })
    else some (s, { w with pc := .saveRubric })
  | .saveRubric =>
    match (save_rubric env.rubric_writable s.sh).2 with
    | some text => some ({ s with rubric_file := text }, { w with pc := .signalRubric })
    | none => some (s, { w with pc := .signalRubric })
  | .signalRubric =>
    some ({ s with sem_rubric := sem_signal_one s.sem_rubric }, { w with pc := .innerTest, all_done := 0 })
  | .innerTest =>
    if w.all_done = 0 ∧ s.sh.terminate = 0 then
      some (s, { w with pc := .waitSelect, picked_q := -1 })
    else some (s, { w with pc := .checkTermMarked })
  | .waitSelect =>
    match sem_wait_one s.sem_question with
    | some v => some ({ s with sem_question := v }, { w with pc := .scan })
    | none => none
  | .scan =>
    some ({ s with sh := { s.sh with question_state := (select_scan s.sh.question_state).1 } },
          { w with pc := .signalSelect,
                   picked_q := (select_scan s.sh.question_state).2.1,
                   all_done := (select_scan s.sh.question_state).2.2 })
  | .signalSelect =>
    some ({ s with sem_question := sem_signal_one s.sem_question }, { w with pc := .afterScan })
  | .afterScan =>
    if w.picked_q = -1 then some (s, { w with pc := .checkTermMarked })
    else some (s, { w with pc := .waitMark })
  | .waitMark =>
    match sem_wait_one s.sem_question with
    | some v => some ({ s with sem_question := v }, { w with pc := .markCorrected })
    | none => none
  | .markCorrected =>
    some ({ s with sh := { s.sh with
              question_state := s.sh.question_state.set w.picked_q.toNat Q_CORRECTED } },
          { w with pc := .signalMark })
  | .signalMark =>
    some ({ s with sem_question := sem_signal_one s.sem_question }, { w with pc := .innerTest })
  | .checkTermMarked =>
    if s.sh.terminate ≠ 0 then some (s, { w with pc := .finished })
    else some (s, { w with pc := .advTest })
  | .advTest =>
    if w.all_done ≠ 0 ∧ s.sh.terminate = 0 then some (s, { w with pc := .waitExam })
    else some (s, { w with pc := .checkTerm })
  | .waitExam =>
    match sem_wait_one s.sem_exam with
    | some v => some ({ s with sem_exam := v }, { w with pc := .advRead })
    | none => none
  | .advRead =>
    if s.sh.current_exam_index + 1 ≥ (env.exams.length : Int) then
      some ({ s with sh := { s.sh with terminate := 1 } },
            { w with pc := .signalExamBreak, next_exam := s.sh.current_exam_index + 1 })
    else
      some ({ s with sh := { s.sh with current_exam_index := s.sh.current_exam_index + 1 } },
            { w with pc := .advLoad, next_exam := s.sh.current_exam_index + 1 })
  | .advLoad =>
    some ({ s with sh := (load_exam env.exams s.sh w.next_exam).2 }, { w with pc := .signalExam })
  | .signalExamBreak =>
    some ({ s with sem_exam := sem_signal_one s.sem_exam }, { w with pc := .finished })
  | .signalExam =>
    some ({ s with sem_exam := sem_signal_one s.sem_exam }, { w with pc := .checkTermLoaded })
  | .checkTermLoaded =>
    if s.sh.terminate ≠ 0 then some (s, { w with pc := .finished })
    else some (s, { w with pc := .checkTerm })
  | .finished => none

/-- One transition of the session: worker `id` moves. -/
def step (env : Env) (s : Session) (id r : Nat) : Option Session :=
  match s.workers[id]? with
  | none => none
  | some w =>
    match ta_step env s w r with
    | none => none
    | some (s1, w1) => some { s1 with workers := s1.workers.set id w1 }

/-- A schedule: which worker moves and what `rand()` gives it, step by step.
`none` when the schedule asks a blocked or finished worker to move. -/
def run (env : Env) (s : Session) : List (Nat × Nat) → Option Session
  | [] => some s
  | (id, r) :: rest =>
    match step env s id r with
    | none => none
    | some s1 => run env s1 rest

/-- The shared memory after `memset(sh, 0, sizeof(SharedData))`. -/
def zeroed : SharedData :=
  { rubric := List.replicate MAX_RUBRIC_LINES (List.replicate MAX_LINE_LEN 0),
    current_student := List.replicate STUDENT_LEN 0,
    question_state := List.replicate MAX_RUBRIC_LINES 0,
    current_exam_index := 0,
    terminate := 0 }

/-- The function `main` up to the `fork` loop: the session the workers start
in, `none` when `main` exits before it creates them.  `rubric` is the rubric
file as `main` finds it. -/
def main_init (env : Env) (rubric : Option (List Nat)) (num_TAs : Nat) : Option Session :=
  if num_TAs < 2 ∨ env.exams.length = 0 ∨ env.exams.length > MAX_EXAMS then none
  else if (load_rubric rubric zeroed).1 ≠ 0 then none
  else if (load_exam env.exams (load_rubric rubric zeroed).2 0).1 ≠ 0 then none
  else some
    { sh := (load_exam env.exams (load_rubric rubric zeroed).2 0).2,
      sem_rubric := 1, sem_question := 1, sem_exam := 1,
      rubric_file := rubric.getD [],
      workers := List.replicate num_TAs
        { pc := .checkTerm, q := 0, picked_q := -1, all_done := 0, next_exam := 0 } }

/-! ## One review pass of `ta` (Part_B lines 208-228) -/

/-- The review loop `for (q = 0; q < MAX_RUBRIC_LINES; q++)` from line `q` on,
`fuel` iterations left; `rand q` is what `rand()` returns for the decision on
line `q`. -/
def review_loop (rubric : List Buf) (rand : Nat → Nat) (q : Nat) : Nat → List Buf
  | 0 => rubric
  | fuel + 1 =>
    review_loop (rubric.set q (review_line (rubric.getD q []) (rand q))) rand (q + 1) fuel

/-- One review pass over the rubric. -/
def review_pass (rubric : List Buf) (rand : Nat → Nat) : List Buf :=
  review_loop rubric rand 0 MAX_RUBRIC_LINES

/-- The number of non-empty lines of a rubric. -/
def non_empty_lines (rubric : List Buf) : Nat :=
  rubric.countP (fun line => line.getD 0 0 != 0)

/-! ## What one worker does to the semaphores -/

/-- The three semaphores of Part_B: `sem_rubric`, `sem_question`, `sem_exam`. -/
inductive Sem where
  | rubric
  | question
  | exam
deriving DecidableEq

/-- What a transition of a worker does that the locking discipline speaks
about: `sem_wait_one`, `sem_signal_one`, and `sleep_ms(min_ms, max_ms)`. -/
inductive Event where
  | wait (sem : Sem)
  | signal (sem : Sem)
  | sleep (min_ms max_ms : Nat)
deriving DecidableEq

/-- The operation a transition performed on one semaphore, read off the value
of the semaphore before and behind the transition. -/
def sem_event (sem : Sem) (before after : Nat) : List Event :=
  if after < before then [Event.wait sem]
  else if before < after then [Event.signal sem]
  else []

/-- The delay a transition executes: `sleep_ms(500, 1000)` (line 215) in a
review iteration on a non-empty line, `sleep_ms(1000, 2000)` (line 271) when
a question was picked. -/
def ta_delay (s : Session) (w : Worker) : List Event :=
  match w.pc with
  | .review =>
    if w.q < MAX_RUBRIC_LINES ∧ (s.sh.rubric.getD w.q []).getD 0 0 ≠ 0 then
      [Event.sleep 500 1000]
    else []
  | .afterScan => if w.picked_q = -1 then [] else [Event.sleep 1000 2000]
  | _ => []

/-- The events of the transition of worker `w` that leads from session `s` to
session `s1`. -/
def ta_events (s : Session) (w : Worker) (s1 : Session) : List Event :=
  sem_event Sem.rubric s.sem_rubric s1.sem_rubric ++
    (sem_event Sem.question s.sem_question s1.sem_question ++
      (sem_event Sem.exam s.sem_exam s1.sem_exam ++ ta_delay s w))

/-- A path of one worker through `ta`.  Before each of its transitions the
rest of the session (the other workers, the scheduler) hands it the session
it finds and `rand()` hands it a number; both are arbitrary.  The result is
the worker behind the path and the events of the path, `none` when the path
asks the worker to move while it is blocked or behind its loop. -/
def worker_path (env : Env) (w : Worker) : List (Session × Nat) → Option (Worker × List Event)
  | [] => some (w, [])
  | (s, r) :: rest =>
    match ta_step env s w r with
    | none => none
    | some (s1, w1) =>
      match worker_path env w1 rest with
      | none => none
      | some (wf, events) => some (wf, ta_events s w s1 ++ events)

/-- The locking discipline of the specification as a check over the events
of a worker, `held` being the semaphore the worker holds: a semaphore is
acquired only while none is held, released only while it is the one held,
the review delay runs under the rubric semaphore only and the marking delay
under no semaphore.  The result is the semaphore held behind the events,
`none` when an event breaks the discipline. -/
def discipline : Option Sem → List Event → Option (Option Sem)
  | held, [] => some held
  | none, Event.wait sem :: rest => discipline (some sem) rest
  | some _, Event.wait _ :: _ => none
  | none, Event.signal _ :: _ => none
  | some h, Event.signal sem :: rest => if h = sem then discipline none rest else none
  | held, Event.sleep min_ms max_ms :: rest =>
    if min_ms = 500 ∧ max_ms = 1000 then
      if held = some Sem.rubric then discipline held rest else none
    else if min_ms = 1000 ∧ max_ms = 2000 then
      if held = none then discipline held rest else none
    else none

/-- The semaphore operations among the events. -/
def sem_operations : List Event → List Event
  | [] => []
  | Event.sleep _ _ :: rest => sem_operations rest
  | e :: rest => e :: sem_operations rest

/-- A sequence of semaphore operations that is a concatenation of pairs
`wait(s); signal(s)` on the same semaphore. -/
def wait_signal_pairs : List Event → Bool
  | [] => true
  | Event.wait s :: Event.signal t :: rest => decide (s = t) && wait_signal_pairs rest
  | _ => false

/-- The semaphore a worker holds at a control point: the one whose
`sem_wait_one` lies behind it and whose `sem_signal_one` lies ahead. -/
def sem_held_at : PC → Option Sem
  | .review | .saveRubric | .signalRubric => some Sem.rubric
  | .scan | .signalSelect | .markCorrected | .signalMark => some Sem.question
  | .advRead | .advLoad | .signalExamBreak | .signalExam => some Sem.exam
  | _ => none

/-- The question a worker has picked and not yet marked: its scan set the
question to `Progressing` and its line 275 has not run yet. -/
def picked_question (w : Worker) : Option Int :=
  match w.pc with
  | .signalSelect | .afterScan => if w.picked_q = -1 then none else some w.picked_q
  | .waitMark | .markCorrected => some w.picked_q
  | _ => none

/-- A worker inside the rubric review-and-save section, between
`sem_wait_one(sem_rubric)` and `sem_signal_one(sem_rubric)`. -/
def in_rubric_section (w : Worker) : Bool :=
  match w.pc with
  | .review | .saveRubric | .signalRubric => true
  | _ => false

/-! ## The lines of a saved text -/

/-- The lines of a text, `line` being the characters of the line read so
far: a newline ends a line, and characters behind the last newline are a
last line. -/
def text_lines_from (line : List Nat) : List Nat → List (List Nat)
  | [] => if line = [] then [] else [line]
  | c :: rest =>
    if c = 10 then line :: text_lines_from [] rest
    else text_lines_from (line ++ [c]) rest

/-- The lines of a text file. -/
def text_lines (text : List Nat) : List (List Nat) := text_lines_from [] text

/-- The number of non-empty lines of a text file. -/
def non_empty_text_lines (text : List Nat) : Nat :=
  (text_lines text).countP (fun l => l != [])

/-- A line on which a correction would write a newline: the byte behind its
first `,` is a TAB (9, or any byte the increment modulo 256 takes to 10). -/
def increment_gives_newline (line : Buf) : Bool :=
  match strchr line 44 with
  | some p => (line.getD (p + 1) 0 + 1) % 256 == 10
  | none => false

/-! ## Sample data -/

/-- The rubric file `q1,0`, `q2,0`, `q3,0`, one line each. -/
def sample_rubric_file : List Nat :=
  [113, 49, 44, 48, 10, 113, 50, 44, 48, 10, 113, 51, 44, 48, 10]

/-- The shared memory behind `load_rubric` on the sample rubric file. -/
def sample_rubric : SharedData := (load_rubric (some sample_rubric_file) zeroed).2

/-- The shared memory behind `load_rubric` on a file whose first line is 127
times `a` followed by `b`: the line is split behind its 127th character. -/
def long_line_rubric : SharedData :=
  (load_rubric (some (List.replicate 127 97 ++ [98, 10])) zeroed).2

/-- Three regular exams, students `1001`, `1002`, `1003`. -/
def three_exams : Env :=
  { exams := [some [49, 48, 48, 49, 10], some [49, 48, 48, 50, 10], some [49, 48, 48, 51, 10]],
    rubric_writable := true }

/-- Exam `1001`, then the sentinel `9999`, then exam `1002`. -/
def sentinel_second : Env :=
  { exams := [some [49, 48, 48, 49, 10], some [57, 57, 57, 57, 10], some [49, 48, 48, 50, 10]],
    rubric_writable := true }

/-- Two regular exams and a rubric file that cannot be opened for writing. -/
def rubric_read_only : Env :=
  { exams := [some [49, 48, 48, 49, 10], some [49, 48, 48, 50, 10]],
    rubric_writable := false }

/-- The session of two workers on the sample rubric behind a schedule. -/
def session_after (env : Env) (schedule : List (Nat × Nat)) : Option Session :=
  match main_init env (some sample_rubric_file) 2 with
  | none => none
  | some s => run env s schedule

/-- What is looked at in a session: where each worker stands, what each has
picked, the student identifier, the question statuses, the exam index and
the terminate flag. -/
def observe (s : Session) : List PC × List Int × List Nat × List Int × Int × Int :=
  (s.workers.map (fun w => w.pc), s.workers.map (fun w => w.picked_q),
    cstr s.sh.current_student, s.sh.question_state, s.sh.current_exam_index, s.sh.terminate)

/-- Worker 0 alone: it reviews the rubric (10 transitions), marks the five
questions one after the other (8 transitions each), scans once more, finds
all of them `Corrected` and arrives at `sem_wait_one(sem_exam)` (7
transitions).  No correction fires (`rand()` gives 1). -/
def worker0_marks_exam : List (Nat × Nat) := List.replicate 57 (0, 1)

/-- Worker 1 then: it reviews the rubric, scans, finds all questions
`Corrected` as well and arrives at `sem_wait_one(sem_exam)` too. -/
def worker1_finds_done : List (Nat × Nat) := List.replicate 17 (1, 1)

/-- Both workers stand at `sem_wait_one(sem_exam)` with `all_done = 1`; worker
0 goes first: wait, next index, `load_exam`, signal. -/
def both_done_worker0_advances : List (Nat × Nat) :=
  worker0_marks_exam ++ worker1_finds_done ++ List.replicate 4 (0, 1)

/-- One regular exam, student `1001`. -/
def one_exam : Env :=
  { exams := [some [49, 48, 48, 49, 10]], rubric_writable := true }

/-- A session as a worker may find it: the sample rubric, exam `1001` just
loaded, all semaphores free. -/
def session_untouched : Session :=
  { sh := (load_exam one_exam.exams sample_rubric 0).2,
    sem_rubric := 1, sem_question := 1, sem_exam := 1,
    rubric_file := sample_rubric_file,
    workers := [] }

/-- The same session with all five questions `Corrected`. -/
def session_corrected : Session :=
  { session_untouched with
    sh := { session_untouched.sh with question_state := List.replicate 5 Q_CORRECTED } }

/-- A worker at the start of `ta`. -/
def fresh_worker : Worker :=
  { pc := .checkTerm, q := 0, picked_q := -1, all_done := 0, next_exam := 0 }

/-- A path of one worker: it reviews the rubric and marks question 0 in
`session_untouched` (18 transitions); then it finds the session with all
questions `Corrected`, scans, takes `sem_exam`, finds no more exams and
leaves its loop (10 transitions). -/
def sample_path : List (Session × Nat) :=
  List.replicate 18 (session_untouched, 1) ++ List.replicate 10 (session_corrected, 1)

/-- The shared memory behind `load_rubric` on the rubric file `a,<TAB>b`,
`q2,0`: two non-empty lines and three empty ones. -/
def tab_rubric : SharedData :=
  (load_rubric (some [97, 44, 9, 98, 10, 113, 50, 44, 48, 10]) zeroed).2

/-! ## Theorems -/

set_option maxRecDepth 100000

/-- The scan loop when no entry in its range is `Untouched`: nothing is
picked, the table is untouched, and `all_done` survives exactly when every
entry in the range is `Corrected`. -/
theorem select_loop_none (qs : List Int) (fuel : Nat) : ∀ (q : Nat) (ad : Int),
    (∀ j, q ≤ j → j < q + fuel → qs.getD j 0 ≠ Q_UNTOUCHED) →
    (select_loop qs q ad fuel).1 = qs ∧ (select_loop qs q ad fuel).2.1 = -1 ∧
    ((∀ j, q ≤ j → j < q + fuel → qs.getD j 0 = Q_CORRECTED) →
      (select_loop qs q ad fuel).2.2 = ad) ∧
    ((∃ j, q ≤ j ∧ j < q + fuel ∧ qs.getD j 0 ≠ Q_CORRECTED) →
      (select_loop qs q ad fuel).2.2 = 0) := by
  induction fuel with
  | zero =>
    intro q ad _
    refine ⟨rfl, rfl, fun _ => rfl, ?_⟩
    rintro ⟨j, h1, h2, _⟩
    omega
  | succ n ih =>
    intro q ad h
    have hq : qs.getD q 0 ≠ Q_UNTOUCHED := h q (le_refl _) (by omega)
    have hrest : ∀ j, q + 1 ≤ j → j < q + 1 + n → qs.getD j 0 ≠ Q_UNTOUCHED :=
      fun j h1 h2 => h j (by omega) (by omega)
    simp only [select_loop, if_neg hq]
    obtain ⟨e1, e2, e3, e4⟩ := ih (q + 1) (if qs.getD q 0 ≠ Q_CORRECTED then 0 else ad) hrest
    refine ⟨e1, e2, ?_, ?_⟩
    · intro hall
      rw [e3 (fun j h1 h2 => hall j (by omega) (by omega))]
      exact if_neg (not_not.mpr (hall q (le_refl _) (by omega)))
    · rintro ⟨j, h1, h2, h3⟩
      by_cases hjq : j = q
      · rw [hjq] at h3
        by_cases hex : ∃ j, q + 1 ≤ j ∧ j < q + 1 + n ∧ qs.getD j 0 ≠ Q_CORRECTED
        · exact e4 hex
        · have hall : ∀ j, q + 1 ≤ j → j < q + 1 + n → qs.getD j 0 = Q_CORRECTED := by
            intro k k1 k2
            by_contra hk
            exact hex ⟨k, k1, k2, hk⟩
          rw [e3 hall]
          exact if_pos h3
      · exact e4 ⟨j, by omega, by omega, h3⟩

/-- The scan loop when some entry in its range is `Untouched`: the first
such entry is picked and set to `Progressing`. -/
theorem select_loop_some (qs : List Int) (fuel : Nat) : ∀ (q : Nat) (ad : Int),
    (∃ j, q ≤ j ∧ j < q + fuel ∧ qs.getD j 0 = Q_UNTOUCHED) →
    ∃ p, q ≤ p ∧ p < q + fuel ∧ qs.getD p 0 = Q_UNTOUCHED ∧
      (∀ j, q ≤ j → j < p → qs.getD j 0 ≠ Q_UNTOUCHED) ∧
      select_loop qs q ad fuel = (qs.set p Q_PROGRESSING, (p : Int), 0) := by
  induction fuel with
  | zero =>
    rintro q ad ⟨j, h1, h2, _⟩
    omega
  | succ n ih =>
    rintro q ad ⟨j, h1, h2, h3⟩
    by_cases hq : qs.getD q 0 = Q_UNTOUCHED
    · refine ⟨q, le_refl _, by omega, hq, fun j a b => by omega, ?_⟩
      simp only [select_loop, if_pos hq]
    · have hj : j ≠ q := fun e => hq (e ▸ h3)
      obtain ⟨p, p1, p2, p3, p4, p5⟩ :=
        ih (q + 1) (if qs.getD q 0 ≠ Q_CORRECTED then 0 else ad) ⟨j, by omega, by omega, h3⟩
      refine ⟨p, by omega, by omega, p3, ?_, ?_⟩
      · intro k k1 k2
        by_cases hk : k = q
        · exact hk ▸ hq
        · exact p4 k (by omega) k2
      · simp only [select_loop, if_neg hq]
        exact p5

/-- C1: the selection scan of `ta` on a question-status table of 5 entries.
If some entry is `Untouched`, the smallest such index `q` is picked, exactly
entry `q` becomes `Progressing`, every other entry is unchanged and the scan
reports not-complete.  If no entry is `Untouched`, nothing is picked
(`picked_q = -1`), the table is unchanged and `all_done` is `1` exactly when
every entry is `Corrected` (and `0` otherwise). -/
theorem select_scan_spec (qs : List Int) (hlen : qs.length = 5) :
    ((∃ i, i < 5 ∧ qs.getD i 0 = Q_UNTOUCHED) →
      ∃ q : Nat, q < 5 ∧ qs.getD q 0 = Q_UNTOUCHED ∧
        (∀ j, j < q → qs.getD j 0 ≠ Q_UNTOUCHED) ∧
        (select_scan qs).2.1 = (q : Int) ∧ (select_scan qs).2.2 = 0 ∧
        (select_scan qs).1.length = 5 ∧
        (select_scan qs).1.getD q 0 = Q_PROGRESSING ∧
        ∀ j, j ≠ q → (select_scan qs).1.getD j 0 = qs.getD j 0) ∧
    ((∀ i, i < 5 → qs.getD i 0 ≠ Q_UNTOUCHED) →
      (select_scan qs).1 = qs ∧ (select_scan qs).2.1 = -1 ∧
      ((select_scan qs).2.2 = 1 ↔ ∀ i, i < 5 → qs.getD i 0 = Q_CORRECTED) ∧
      ((select_scan qs).2.2 = 0 ↔ ¬ ∀ i, i < 5 → qs.getD i 0 = Q_CORRECTED)) := by
  constructor
  · rintro ⟨i, hi, h0⟩
    obtain ⟨p, _, p2, p3, p4, p5⟩ :=
      select_loop_some qs MAX_RUBRIC_LINES 0 1 ⟨i, Nat.zero_le _, by simpa [MAX_RUBRIC_LINES] using hi, h0⟩
    have hp : p < 5 := by simpa [MAX_RUBRIC_LINES] using p2
    refine ⟨p, hp, p3, fun j hj => p4 j (Nat.zero_le _) hj, ?_⟩
    have hs : select_scan qs = (qs.set p Q_PROGRESSING, (p : Int), 0) := p5
    rw [hs]
    refine ⟨rfl, rfl, by simp [hlen], ?_, ?_⟩
    · simp [List.getD_eq_getElem?_getD, List.getElem?_set, hlen, hp]
    · intro j hj
      simp [List.getD_eq_getElem?_getD, List.getElem?_set, Ne.symm hj]
  · intro hnone
    obtain ⟨e1, e2, e3, e4⟩ := select_loop_none qs MAX_RUBRIC_LINES 0 1
      (fun j _ h2 => hnone j (by simpa [MAX_RUBRIC_LINES] using h2))
    refine ⟨e1, e2, ?_, ?_⟩
    · constructor
      · intro h1
        by_contra hc
        have hex : ∃ j, 0 ≤ j ∧ j < 0 + MAX_RUBRIC_LINES ∧ qs.getD j 0 ≠ Q_CORRECTED := by
          by_contra hne
          apply hc
          intro i hi
          by_contra hi2
          exact hne ⟨i, Nat.zero_le _, by simpa [MAX_RUBRIC_LINES] using hi, hi2⟩
        have h0 : (select_scan qs).2.2 = 0 := e4 hex
        rw [h0] at h1
        exact absurd h1 (by decide)
      · intro hall
        exact e3 (fun j _ h2 => hall j (by simpa [MAX_RUBRIC_LINES] using h2))
    · constructor
      · intro h0 hall
        have h1 : (select_scan qs).2.2 = 1 :=
          e3 (fun j _ h2 => hall j (by simpa [MAX_RUBRIC_LINES] using h2))
        rw [h1] at h0
        exact absurd h0 (by decide)
      · intro hc
        apply e4
        by_contra hne
        apply hc
        intro i hi
        by_contra hi2
        exact hne ⟨i, Nat.zero_le _, by simpa [MAX_RUBRIC_LINES] using hi, hi2⟩

/-- Witness for C1 on the table `Corrected, Progressing, Untouched, Untouched,
Corrected`. -/
theorem select_scan_spec_witness :
    ([2, 1, 0, 0, 2] : List Int).length = 5 ∧ select_scan [2, 1, 0, 0, 2] = ([2, 1, 1, 0, 2], 2, 0) ∧
    (((∃ i, i < 5 ∧ ([2, 1, 0, 0, 2] : List Int).getD i 0 = Q_UNTOUCHED) →
      ∃ q : Nat, q < 5 ∧ ([2, 1, 0, 0, 2] : List Int).getD q 0 = Q_UNTOUCHED ∧
        (∀ j, j < q → ([2, 1, 0, 0, 2] : List Int).getD j 0 ≠ Q_UNTOUCHED) ∧
        (select_scan [2, 1, 0, 0, 2]).2.1 = (q : Int) ∧ (select_scan [2, 1, 0, 0, 2]).2.2 = 0 ∧
        (select_scan [2, 1, 0, 0, 2]).1.length = 5 ∧
        (select_scan [2, 1, 0, 0, 2]).1.getD q 0 = Q_PROGRESSING ∧
        ∀ j, j ≠ q → (select_scan [2, 1, 0, 0, 2]).1.getD j 0 = ([2, 1, 0, 0, 2] : List Int).getD j 0) ∧
    ((∀ i, i < 5 → ([2, 1, 0, 0, 2] : List Int).getD i 0 ≠ Q_UNTOUCHED) →
      (select_scan [2, 1, 0, 0, 2]).1 = [2, 1, 0, 0, 2] ∧ (select_scan [2, 1, 0, 0, 2]).2.1 = -1 ∧
      ((select_scan [2, 1, 0, 0, 2]).2.2 = 1 ↔ ∀ i, i < 5 → ([2, 1, 0, 0, 2] : List Int).getD i 0 = Q_CORRECTED) ∧
      ((select_scan [2, 1, 0, 0, 2]).2.2 = 0 ↔ ¬ ∀ i, i < 5 → ([2, 1, 0, 0, 2] : List Int).getD i 0 = Q_CORRECTED))) :=
  ⟨by decide, by decide, select_scan_spec [2, 1, 0, 0, 2] (by decide)⟩

/-! ### C strings -/

theorem cstr_ne_zero (b : Buf) : ∀ c ∈ cstr b, c ≠ 0 := by
  induction b with
  | nil => intro c hc; simp [cstr] at hc
  | cons x rest ih =>
    intro c hc
    by_cases hx : x = 0
    · simp [cstr, hx] at hc
    · simp only [cstr, if_neg hx, List.mem_cons] at hc
      rcases hc with h | h
      · exact h ▸ hx
      · exact ih c h

theorem cstr_subset (b : Buf) : ∀ c ∈ cstr b, c ∈ b := by
  induction b with
  | nil => intro c hc; simp [cstr] at hc
  | cons x rest ih =>
    intro c hc
    by_cases hx : x = 0
    · simp [cstr, hx] at hc
    · simp only [cstr, if_neg hx, List.mem_cons] at hc
      rcases hc with h | h
      · exact h ▸ List.mem_cons_self _ _
      · exact List.mem_cons_of_mem _ (ih c h)

theorem cstr_append (s t : List Nat) (hs : ∀ c ∈ s, c ≠ 0) : cstr (s ++ t) = s ++ cstr t := by
  induction s with
  | nil => rfl
  | cons x rest ih =>
    have hx : x ≠ 0 := hs x (List.mem_cons_self _ _)
    have hr : ∀ c ∈ rest, c ≠ 0 := fun c hc => hs c (List.mem_cons_of_mem _ hc)
    rw [List.cons_append]
    simp only [cstr, if_neg hx]
    rw [ih hr, List.cons_append]

theorem cstr_eq_self (s : List Nat) (hs : ∀ c ∈ s, c ≠ 0) : cstr s = s := by
  have h := cstr_append s [] hs
  simpa [cstr] using h

theorem cstr_append_zero (s t : List Nat) : cstr (s ++ 0 :: t) = cstr s := by
  induction s with
  | nil => simp [cstr]
  | cons x rest ih =>
    by_cases hx : x = 0
    · simp [cstr, hx]
    · rw [List.cons_append]
      simp only [cstr, if_neg hx]
      rw [ih]

/-- A string that holds a NUL ends there, whatever follows in the buffer. -/
theorem cstr_append_of_zero_mem (s t : List Nat) (hs : (0 : Nat) ∈ s) : cstr (s ++ t) = cstr s := by
  induction s with
  | nil => simp at hs
  | cons x rest ih =>
    by_cases hx : x = 0
    · simp [cstr, hx]
    · have hr : (0 : Nat) ∈ rest := by
        rcases List.mem_cons.mp hs with h | h
        · exact absurd h.symm hx
        · exact h
      rw [List.cons_append]
      simp only [cstr, if_neg hx]
      rw [ih hr]

theorem cstr_length_le (b : Buf) : (cstr b).length ≤ b.length := by
  induction b with
  | nil => simp [cstr]
  | cons x rest ih =>
    by_cases hx : x = 0
    · simp [cstr, hx]
    · simp only [cstr, if_neg hx, List.length_cons]
      omega

theorem cstr_take (s : List Nat) : ∀ n, cstr (s.take n) = (cstr s).take n := by
  induction s with
  | nil => intro n; simp [cstr]
  | cons x rest ih =>
    intro n
    cases n with
    | zero => simp [cstr]
    | succ m =>
      by_cases hx : x = 0
      · simp [cstr, hx]
      · simp only [List.take_succ_cons, cstr, if_neg hx, ih m]

/-- Inside the string, the buffer and the string hold the same bytes. -/
theorem getD_cstr (b : Buf) : ∀ i, i < strlen b → (cstr b).getD i 0 = b.getD i 0 := by
  unfold strlen
  induction b with
  | nil => intro i hi; simp [cstr] at hi
  | cons x rest ih =>
    intro i hi
    by_cases hx : x = 0
    · simp [cstr, hx] at hi
    · simp only [cstr, if_neg hx, List.length_cons] at hi ⊢
      cases i with
      | zero => rfl
      | succ j =>
        simp only [List.getD_cons_succ]
        exact ih j (by omega)

/-- Writing a NUL inside the string cuts the string there. -/
theorem cstr_set_zero (b : Buf) : ∀ i, i < strlen b → cstr (b.set i 0) = (cstr b).take i := by
  unfold strlen
  induction b with
  | nil => intro i hi; simp [cstr] at hi
  | cons x rest ih =>
    intro i hi
    by_cases hx : x = 0
    · simp [cstr, hx] at hi
    · simp only [cstr, if_neg hx, List.length_cons] at hi ⊢
      cases i with
      | zero => simp [cstr]
      | succ j =>
        simp only [List.set_cons_succ, cstr, if_neg hx, List.take_succ_cons]
        rw [ih j (by omega)]

/-- A string without a newline is left alone by the stripping. -/
theorem strip_newline_of_not_mem (b : Buf) (h : (10 : Nat) ∉ cstr b) : strip_newline b = b := by
  unfold strip_newline
  by_cases hc : strlen b > 0 ∧ b.getD (strlen b - 1) 0 = 10
  · exfalso
    apply h
    have hlt : strlen b - 1 < strlen b := by omega
    have e := getD_cstr b (strlen b - 1) hlt
    rw [hc.2] at e
    have hlt2 : strlen b - 1 < (cstr b).length := hlt
    rw [List.getD_eq_getElem _ _ hlt2] at e
    rw [← e]
    exact List.getElem_mem _
  · rw [if_neg hc]

/-- A string that ends in a newline loses exactly that newline. -/
theorem cstr_strip_newline_of_eq (b : Buf) (s : List Nat) (h : cstr b = s ++ [10]) :
    cstr (strip_newline b) = s := by
  have hlen : strlen b = s.length + 1 := by simp [strlen, h]
  have hlt : strlen b - 1 < strlen b := by omega
  have e := getD_cstr b (strlen b - 1) hlt
  have hc : strlen b > 0 ∧ b.getD (strlen b - 1) 0 = 10 := by
    refine ⟨by omega, ?_⟩
    rw [← e, h, hlen]
    simp [List.getD_eq_getElem?_getD]
  unfold strip_newline
  rw [if_pos hc, cstr_set_zero b _ hlt, h, hlen]
  simp

/-! ### `fgets` -/

/-- What `fgets` takes from a file: the first line cut at the room in the
buffer, or the whole first line and its newline when that fits. -/
theorem fgets_take_line : ∀ (k : Nat) (file : List Nat),
    fgets_take k file = (first_line file).take k ∨
    ((first_line file).length < k ∧
      fgets_take k file = first_line file ++ [10]) := by
  intro k
  induction k with
  | zero => intro file; left; simp [fgets_take]
  | succ n ih =>
    intro file
    cases file with
    | nil => left; simp [fgets_take, first_line]
    | cons c rest =>
      by_cases hc : c = 10
      · right
        simp [fgets_take, first_line, hc]
      · rcases ih rest with h | ⟨h1, h2⟩
        · left
          simp [fgets_take, first_line, hc, h]
        · right
          simp [fgets_take, first_line, hc, h1, h2]

theorem first_line_no_newline (file : List Nat) : (10 : Nat) ∉ first_line file := by
  induction file with
  | nil => simp [first_line]
  | cons c rest ih =>
    by_cases hc : c = 10
    · simp [first_line, hc]
    · simp only [first_line, if_neg hc, List.mem_cons, not_or]
      exact ⟨fun h => hc h.symm, ih⟩

theorem fgets_take_ne_nil (k : Nat) (c : Nat) (rest : List Nat) :
    fgets_take (k + 1) (c :: rest) ≠ [] := by
  by_cases hc : c = 10 <;> simp [fgets_take, hc]

/-- The string `load_exam` finds in its local buffer behind `fgets` and the
newline stripping: the first line of the file, cut at 15 characters. -/
theorem cstr_strip_store_fgets_take (z file : List Nat) (k : Nat) :
    cstr (strip_newline (store z (fgets_take k file))) =
      cstr ((first_line file).take k) := by
  have hnl : (10 : Nat) ∉ first_line file := first_line_no_newline file
  rcases fgets_take_line k file with h | ⟨h1, h2⟩
  · rw [h]
    have hno : (10 : Nat) ∉ cstr (store z ((first_line file).take k)) := by
      unfold store
      rw [cstr_append_zero]
      intro hmem
      exact hnl (List.mem_of_mem_take (cstr_subset _ _ hmem))
    rw [strip_newline_of_not_mem _ hno]
    unfold store
    rw [cstr_append_zero]
  · rw [h2, List.take_of_length_le (le_of_lt h1)]
    by_cases hz : (0 : Nat) ∈ first_line file
    · have e : cstr (store z (first_line file ++ [10])) = cstr (first_line file) := by
        unfold store
        rw [cstr_append_zero, cstr_append_of_zero_mem _ _ hz]
      have hno : (10 : Nat) ∉ cstr (store z (first_line file ++ [10])) := by
        rw [e]
        intro hmem
        exact hnl (cstr_subset _ _ hmem)
      rw [strip_newline_of_not_mem _ hno, e]
    · have hall : ∀ c ∈ first_line file, c ≠ 0 := fun c hc h0 => hz (h0 ▸ hc)
      have e : cstr (store z (first_line file ++ [10])) = first_line file ++ [10] := by
        unfold store
        rw [cstr_append_zero]
        apply cstr_eq_self
        intro c hc
        rcases List.mem_append.mp hc with h | h
        · exact hall c h
        · simp at h
          omega
      rw [cstr_strip_newline_of_eq _ _ e, cstr_eq_self _ hall]

/-- The string `strncpy` and the forced terminator leave in `current_student`:
the first 15 characters of the source string. -/
theorem cstr_strncpy_set (dest src : Buf) (n : Nat) :
    cstr ((strncpy dest src n).set n 0) = (cstr src).take n := by
  have hp : ∀ c ∈ (cstr src).take n, c ≠ 0 :=
    fun c hc => cstr_ne_zero src c (List.mem_of_mem_take hc)
  have hle : ((cstr src).take n).length ≤ n := by simp
  unfold strncpy
  by_cases hlt : ((cstr src).take n).length < n
  · obtain ⟨m, hm⟩ : ∃ m, n - ((cstr src).take n).length = m + 1 := ⟨n - ((cstr src).take n).length - 1, by omega⟩
    rw [hm, List.replicate_succ, List.append_assoc, List.set_append]
    have h1 : ¬ n < ((cstr src).take n).length := by omega
    rw [if_neg h1, List.cons_append, cstr_append _ _ hp]
    cases hk : n - ((cstr src).take n).length with
    | zero => omega
    | succ j => simp [cstr]
  · have h0 : n - ((cstr src).take n).length = 0 := by omega
    have hl : ((cstr src).take n).length = n := by omega
    rw [h0, List.replicate_zero, List.append_nil, List.set_append]
    have h1 : ¬ n < ((cstr src).take n).length := by omega
    rw [if_neg h1, cstr_append _ _ hp, hl, Nat.sub_self]
    cases dest.drop n with
    | nil => simp [cstr]
    | cons y ys => simp [cstr]

theorem reset_questions_five (qs : List Int) (h : qs.length = 5) :
    reset_questions qs 0 MAX_RUBRIC_LINES = List.replicate 5 Q_UNTOUCHED := by
  match qs, h with
  | [_, _, _, _, _], _ => rfl

/-! ### `load_exam` and the exam advance -/

/-- No path of `load_exam` writes `current_exam_index` or the rubric. -/
theorem load_exam_keeps_index (exams : List (Option (List Nat))) (sh : SharedData) (idx : Int) :
    (load_exam exams sh idx).2.current_exam_index = sh.current_exam_index ∧
    (load_exam exams sh idx).2.rubric = sh.rubric := by
  unfold load_exam
  split_ifs
  · exact ⟨rfl, rfl⟩
  · split
    · exact ⟨rfl, rfl⟩
    · split
      · exact ⟨rfl, rfl⟩
      · dsimp only
        split_ifs <;> exact ⟨rfl, rfl⟩

/-- The two transitions `advRead`, `advLoad` of a worker are `ta_advance`:
the shared structure behind them is the one `ta_advance` returns. -/
theorem ta_step_advance (env : Env) (s : Session) (w : Worker) (r : Nat)
    (hpc : w.pc = PC.advRead) :
    ∃ s1 w1, ta_step env s w r = some (s1, w1) ∧
      s1.sh = (if (ta_advance env.exams s.sh).2 then (ta_advance env.exams s.sh).1
               else { s.sh with current_exam_index := s.sh.current_exam_index + 1 }) ∧
      (w1.pc = PC.signalExamBreak ↔ (ta_advance env.exams s.sh).2 = true) ∧
      ((ta_advance env.exams s.sh).2 = false → w1.pc = PC.advLoad ∧
        ∃ s2 w2, ta_step env s1 w1 r = some (s2, w2) ∧ w2.pc = PC.signalExam ∧
          s2.sh = (ta_advance env.exams s.sh).1) := by
  unfold ta_step ta_advance
  rw [hpc]
  dsimp only
  by_cases h : s.sh.current_exam_index + 1 ≥ (env.exams.length : Int)
  · simp only [if_pos h]
    exact ⟨_, _, rfl, rfl, by simp, by simp⟩
  · simp only [if_neg h]
    refine ⟨_, _, rfl, rfl, by simp, ?_⟩
    intro _
    exact ⟨rfl, _, _, rfl, rfl, rfl⟩

/-- C4: the exam advance of `ta` on a shared structure with exam index `i`,
`n` exams being configured.  When `i + 1 >= n` it sets the terminate flag and
leaves the index, the student identifier, the question statuses and the
rubric as they are; otherwise the index becomes exactly `i + 1` and the rest
of the structure is what `load_exam` at `i + 1` makes of it.  So an advance
from an index within `0 .. n-1` ends within `0 .. n-1`, at `i` (exhaustion)
or at `i + 1`. -/
theorem ta_advance_spec (exams : List (Option (List Nat))) (sh : SharedData) :
    (sh.current_exam_index + 1 ≥ (exams.length : Int) →
      (ta_advance exams sh).2 = true ∧
      (ta_advance exams sh).1.terminate = 1 ∧
      (ta_advance exams sh).1.current_exam_index = sh.current_exam_index ∧
      (ta_advance exams sh).1.current_student = sh.current_student ∧
      (ta_advance exams sh).1.question_state = sh.question_state ∧
      (ta_advance exams sh).1.rubric = sh.rubric) ∧
    (sh.current_exam_index + 1 < (exams.length : Int) →
      (ta_advance exams sh).2 = false ∧
      (ta_advance exams sh).1.current_exam_index = sh.current_exam_index + 1 ∧
      (ta_advance exams sh).1 =
        (load_exam exams { sh with current_exam_index := sh.current_exam_index + 1 }
          (sh.current_exam_index + 1)).2) ∧
    (0 ≤ sh.current_exam_index → sh.current_exam_index < (exams.length : Int) →
      0 ≤ (ta_advance exams sh).1.current_exam_index ∧
      (ta_advance exams sh).1.current_exam_index < (exams.length : Int) ∧
      ((ta_advance exams sh).1.current_exam_index = sh.current_exam_index ∨
        (ta_advance exams sh).1.current_exam_index = sh.current_exam_index + 1)) := by
  have hlt : sh.current_exam_index + 1 < (exams.length : Int) →
      (ta_advance exams sh).2 = false ∧
      (ta_advance exams sh).1.current_exam_index = sh.current_exam_index + 1 ∧
      (ta_advance exams sh).1 =
        (load_exam exams { sh with current_exam_index := sh.current_exam_index + 1 }
          (sh.current_exam_index + 1)).2 := by
    intro h
    have h2 : ¬ sh.current_exam_index + 1 ≥ (exams.length : Int) := not_le.mpr h
    unfold ta_advance
    dsimp only
    rw [if_neg h2]
    exact ⟨rfl, (load_exam_keeps_index exams _ _).1, rfl⟩
  have hge : sh.current_exam_index + 1 ≥ (exams.length : Int) →
      ta_advance exams sh = ({ sh with terminate := 1 }, true) := by
    intro h
    unfold ta_advance
    dsimp only
    rw [if_pos h]
  refine ⟨?_, hlt, ?_⟩
  · intro h
    rw [hge h]
    exact ⟨rfl, rfl, rfl, rfl, rfl, rfl⟩
  · intro h0 h1
    by_cases h : sh.current_exam_index + 1 ≥ (exams.length : Int)
    · rw [hge h]
      exact ⟨h0, h1, Or.inl rfl⟩
    · obtain ⟨_, e, _⟩ := hlt (not_le.mp h)
      rw [e]
      exact ⟨by omega, not_le.mp h, Or.inr rfl⟩

/-- Witness for C4: two exams, the first a regular one, the second the
sentinel; the advance from index 0 loads the sentinel. -/
theorem ta_advance_spec_witness :
    (ta_advance [some [49, 48, 48, 49, 10], some [57, 57, 57, 57, 10]] zeroed).1.current_exam_index = 1 ∧
    (ta_advance [some [49, 48, 48, 49, 10], some [57, 57, 57, 57, 10]] zeroed).1.terminate = 1 ∧
    (ta_advance [some [49, 48, 48, 49, 10], some [57, 57, 57, 57, 10]]
      { zeroed with current_exam_index := 1 }).1.current_exam_index = 1 ∧
    (0 ≤ (ta_advance [some [49, 48, 48, 49, 10], some [57, 57, 57, 57, 10]] zeroed).1.current_exam_index ∧
      (ta_advance [some [49, 48, 48, 49, 10], some [57, 57, 57, 57, 10]] zeroed).1.current_exam_index <
        (([some [49, 48, 48, 49, 10], some [57, 57, 57, 57, 10]] :
          List (Option (List Nat))).length : Int) ∧
      ((ta_advance [some [49, 48, 48, 49, 10], some [57, 57, 57, 57, 10]] zeroed).1.current_exam_index =
          zeroed.current_exam_index ∨
        (ta_advance [some [49, 48, 48, 49, 10], some [57, 57, 57, 57, 10]] zeroed).1.current_exam_index =
          zeroed.current_exam_index + 1)) :=
  ⟨by decide, by decide, by decide,
    (ta_advance_spec [some [49, 48, 48, 49, 10], some [57, 57, 57, 57, 10]] zeroed).2.2
      (by decide) (by decide)⟩

theorem fgets_some (buf : Buf) (n : Nat) (stream : List Nat)
    (h : fgets_take (n - 1) stream ≠ []) :
    fgets buf n stream = some (store buf (fgets_take (n - 1) stream),
      stream.drop (fgets_take (n - 1) stream).length) := by
  unfold fgets
  cases hg : fgets_take (n - 1) stream with
  | nil => exact absurd hg h
  | cons c cs => rfl

/-- C6: `load_exam` on an index in range whose file opens and is not empty.
It returns `0`; all 5 question statuses are `Untouched` whatever they were;
the string in `current_student` is the first line of the file without its
newline, cut at 15 characters (read as a C string, so up to a NUL byte if the
file holds one: for a line of text it is that line itself); the exam index
and the rubric are unchanged; and the terminate flag is set exactly when it
was set before or `atoi` of the stored identifier is 9999. -/
theorem load_exam_success (exams : List (Option (List Nat))) (sh : SharedData) (idx : Int)
    (file : List Nat) (h0 : 0 ≤ idx) (h1 : idx < (exams.length : Int))
    (hfile : exams.getD idx.toNat none = some file) (hne : file ≠ [])
    (hq : sh.question_state.length = 5) :
    (load_exam exams sh idx).1 = 0 ∧
    (load_exam exams sh idx).2.question_state = List.replicate 5 Q_UNTOUCHED ∧
    cstr (load_exam exams sh idx).2.current_student = cstr ((first_line file).take 15) ∧
    ((∀ c ∈ (first_line file).take 15, c ≠ 0) →
      cstr (load_exam exams sh idx).2.current_student = (first_line file).take 15) ∧
    (load_exam exams sh idx).2.current_exam_index = sh.current_exam_index ∧
    (load_exam exams sh idx).2.rubric = sh.rubric ∧
    ((load_exam exams sh idx).2.terminate ≠ 0 ↔
      (sh.terminate ≠ 0 ∨ atoi (load_exam exams sh idx).2.current_student = 9999)) := by
  have hrange : ¬ (idx < 0 ∨ idx ≥ (exams.length : Int)) := by
    rintro (h | h) <;> omega
  obtain ⟨c, rest, rfl⟩ : ∃ c rest, file = c :: rest := by
    cases file with
    | nil => exact absurd rfl hne
    | cons c rest => exact ⟨c, rest, rfl⟩
  have hg := fgets_some (List.replicate STUDENT_LEN 0) STUDENT_LEN (c :: rest)
    (fgets_take_ne_nil _ c rest)
  have hstudent : cstr ((strncpy sh.current_student
        (strip_newline (store (List.replicate STUDENT_LEN 0)
          (fgets_take (STUDENT_LEN - 1) (c :: rest)))) (STUDENT_LEN - 1)).set (STUDENT_LEN - 1) 0) =
      cstr ((first_line (c :: rest)).take 15) := by
    rw [cstr_strncpy_set, cstr_strip_store_fgets_take]
    have e : STUDENT_LEN - 1 = 15 := rfl
    rw [e, ← cstr_take, List.take_take]
    simp
  have hconj : ∀ st : SharedData,
      st.question_state = List.replicate 5 Q_UNTOUCHED →
      cstr st.current_student = cstr ((first_line (c :: rest)).take 15) →
      st.current_exam_index = sh.current_exam_index → st.rubric = sh.rubric →
      (st.terminate ≠ 0 ↔ (sh.terminate ≠ 0 ∨ atoi st.current_student = 9999)) →
      (0 : Int) = 0 ∧ st.question_state = List.replicate 5 Q_UNTOUCHED ∧
        cstr st.current_student = cstr ((first_line (c :: rest)).take 15) ∧
        ((∀ c1 ∈ (first_line (c :: rest)).take 15, c1 ≠ 0) →
          cstr st.current_student = (first_line (c :: rest)).take 15) ∧
        st.current_exam_index = sh.current_exam_index ∧ st.rubric = sh.rubric ∧
        (st.terminate ≠ 0 ↔ (sh.terminate ≠ 0 ∨ atoi st.current_student = 9999)) := by
    intro st a b c1 d e
    exact ⟨rfl, a, b, fun hz => by rw [b, cstr_eq_self _ hz], c1, d, e⟩
  unfold load_exam
  rw [if_neg hrange]
  simp only [hfile, hg]
  split_ifs with hs
  · apply hconj
    · exact reset_questions_five _ hq
    · exact hstudent
    · rfl
    · rfl
    · constructor
      · intro _
        exact Or.inr hs
      · intro _
        show (1 : Int) ≠ 0
        decide
  · apply hconj
    · exact reset_questions_five _ hq
    · exact hstudent
    · rfl
    · rfl
    · constructor
      · intro h
        exact Or.inl h
      · rintro (h | h)
        · exact h
        · exact absurd h hs

/-- Witness for C6: the second of two exam files holds ` 9999x` as its first
line; loading it over a half-marked table resets the table, stores the line
and sets the terminate flag. -/
theorem load_exam_success_witness :
    (load_exam [some [49, 48, 48, 49, 10], some [32, 57, 57, 57, 57, 120, 10, 65, 10]]
      { zeroed with question_state := [2, 1, 0, 2, 2] } 1) =
      (0, { zeroed with
              current_student := [32, 57, 57, 57, 57, 120, 0, 0, 0, 0, 0, 0, 0, 0, 0, 0],
              terminate := 1 }) ∧
    cstr (load_exam [some [49, 48, 48, 49, 10], some [32, 57, 57, 57, 57, 120, 10, 65, 10]]
      { zeroed with question_state := [2, 1, 0, 2, 2] } 1).2.current_student =
      cstr ((first_line [32, 57, 57, 57, 57, 120, 10, 65, 10]).take 15) :=
  ⟨by decide,
   (load_exam_success [some [49, 48, 48, 49, 10], some [32, 57, 57, 57, 57, 120, 10, 65, 10]]
      { zeroed with question_state := [2, 1, 0, 2, 2] } 1 [32, 57, 57, 57, 57, 120, 10, 65, 10]
      (by decide) (by decide) (by decide) (by decide) (by decide)).2.2.1⟩

/-- C7: `load_exam` returns `-1` exactly when the index is negative or not
below the number of configured exams, or the exam file cannot be opened, or
the file is empty; it returns `0` otherwise.  On every failure the terminate
flag is set and the rest of the shared structure (student identifier,
question statuses, exam index, rubric) is exactly as it was. -/
theorem load_exam_failure (exams : List (Option (List Nat))) (sh : SharedData) (idx : Int) :
    ((load_exam exams sh idx).1 = -1 ↔
      (idx < 0 ∨ idx ≥ (exams.length : Int) ∨ exams.getD idx.toNat none = none ∨
        exams.getD idx.toNat none = some [])) ∧
    ((load_exam exams sh idx).1 = -1 → (load_exam exams sh idx).2 = { sh with terminate := 1 }) ∧
    ((load_exam exams sh idx).1 = -1 ∨ (load_exam exams sh idx).1 = 0) := by
  unfold load_exam
  by_cases h : idx < 0 ∨ idx ≥ (exams.length : Int)
  · rw [if_pos h]
    refine ⟨⟨fun _ => ?_, fun _ => rfl⟩, fun _ => rfl, Or.inl rfl⟩
    rcases h with h | h
    · exact Or.inl h
    · exact Or.inr (Or.inl h)
  · rw [if_neg h]
    have h1 : ¬ idx < 0 := fun a => h (Or.inl a)
    have h2 : ¬ idx ≥ (exams.length : Int) := fun a => h (Or.inr a)
    cases hf : exams.getD idx.toNat none with
    | none =>
      refine ⟨⟨fun _ => Or.inr (Or.inr (Or.inl rfl)), fun _ => rfl⟩, fun _ => rfl, Or.inl rfl⟩
    | some file =>
      cases file with
      | nil =>
        refine ⟨⟨fun _ => Or.inr (Or.inr (Or.inr rfl)), fun _ => rfl⟩, fun _ => rfl, Or.inl rfl⟩
      | cons c rest =>
        have hg : ∃ b t, fgets (List.replicate STUDENT_LEN 0) STUDENT_LEN (c :: rest) = some (b, t) := by
          unfold fgets
          by_cases hc : c = 10
          · simp [STUDENT_LEN, fgets_take, hc]
          · simp [STUDENT_LEN, fgets_take, hc]
        obtain ⟨b, t, hbt⟩ := hg
        simp only [hbt]
        split_ifs
        · refine ⟨⟨fun a => absurd a (by decide), ?_⟩, fun a => absurd a (by decide), Or.inr rfl⟩
          rintro (a | a | a | a)
          · exact absurd a h1
          · exact absurd a h2
          · exact absurd a (by simp)
          · exact absurd a (by simp)
        · refine ⟨⟨fun a => absurd a (by decide), ?_⟩, fun a => absurd a (by decide), Or.inr rfl⟩
          rintro (a | a | a | a)
          · exact absurd a h1
          · exact absurd a h2
          · exact absurd a (by simp)
          · exact absurd a (by simp)

/-! ### The rubric file: `save_rubric` and `load_rubric` -/

theorem render_append (a b : List (List Nat)) : render (a ++ b) = render a ++ render b := by
  induction a with
  | nil => rfl
  | cons l ls ih => simp [render, ih]

/-- What the loop of `save_rubric` appends: the remaining lines, each with
its newline. -/
theorem save_rubric_loop_eq (rubric : List Buf) (fuel : Nat) : ∀ (i : Nat) (out : List Nat),
    i + fuel ≤ rubric.length →
    save_rubric_loop rubric out i fuel = out ++ render (((rubric.drop i).take fuel).map cstr) := by
  induction fuel with
  | zero => intro i out _; simp [save_rubric_loop, render]
  | succ n ih =>
    intro i out h
    have hi : i < rubric.length := by omega
    rw [save_rubric_loop, ih (i + 1) _ (by omega), List.drop_eq_getElem_cons hi,
      List.getD_eq_getElem _ _ hi]
    simp [render]

/-- A line that fits the buffer with its newline is read whole. -/
theorem fgets_take_append (l rest : List Nat) (hnl : (10 : Nat) ∉ l) : ∀ k, l.length < k →
    fgets_take k (l ++ 10 :: rest) = l ++ [10] := by
  induction l with
  | nil =>
    intro k hk
    obtain ⟨m, rfl⟩ : ∃ m, k = m + 1 := ⟨k - 1, by simp at hk; omega⟩
    simp [fgets_take]
  | cons c cs ih =>
    intro k hk
    obtain ⟨m, rfl⟩ : ∃ m, k = m + 1 := ⟨k - 1, by simp at hk; omega⟩
    have hc : c ≠ 10 := fun e => hnl (e ▸ List.mem_cons_self _ _)
    have hcs : (10 : Nat) ∉ cs := fun e => hnl (List.mem_cons_of_mem _ e)
    rw [List.cons_append]
    simp only [fgets_take, if_neg hc]
    rw [ih hcs m (by simp at hk; omega), List.cons_append]

/-- One `fgets` of `load_rubric` on a file that starts with a line of at most
126 characters and its newline: the line is stored, the newline stripped. -/
theorem fgets_line (buf : Buf) (l rest : List Nat) (hnl : (10 : Nat) ∉ l)
    (hz : ∀ c ∈ l, c ≠ 0) (hlen : l.length ≤ 126) :
    ∃ b, fgets buf MAX_LINE_LEN (l ++ 10 :: rest) = some (b, rest) ∧ cstr (strip_newline b) = l := by
  have ht : fgets_take (MAX_LINE_LEN - 1) (l ++ 10 :: rest) = l ++ [10] :=
    fgets_take_append l rest hnl _ (by simp [MAX_LINE_LEN]; omega)
  have hne : fgets_take (MAX_LINE_LEN - 1) (l ++ 10 :: rest) ≠ [] := by
    rw [ht]
    simp
  refine ⟨store buf (l ++ [10]), ?_, ?_⟩
  · rw [fgets_some buf _ _ hne, ht]
    simp
  · apply cstr_strip_newline_of_eq
    unfold store
    rw [cstr_append_zero]
    apply cstr_eq_self
    intro c hc
    rcases List.mem_append.mp hc with h | h
    · exact hz c h
    · simp at h
      omega

theorem load_rubric_loop_length (fuel : Nat) : ∀ (r : List Buf) (stream : List Nat) (i : Nat),
    (load_rubric_loop r stream i fuel).length = r.length := by
  induction fuel with
  | zero => intro r stream i; rfl
  | succ n ih =>
    intro r stream i
    rw [load_rubric_loop]
    split
    · rw [ih]
      simp
    · rw [ih]
      simp

/-- The loop of `load_rubric` on the text of `fuel` lines, each at most 126
characters and free of newlines and NULs: lines `i ..` of the rubric become
those lines, the others are kept. -/
theorem load_rubric_loop_render (fuel : Nat) : ∀ (i : Nat) (r : List Buf) (lines : List (List Nat)),
    lines.length = fuel → i + fuel ≤ r.length →
    (∀ l ∈ lines, l.length ≤ 126 ∧ (10 : Nat) ∉ l ∧ ∀ c ∈ l, c ≠ 0) →
    (load_rubric_loop r (render lines) i fuel).map cstr =
      (r.take i).map cstr ++ lines ++ (r.drop (i + fuel)).map cstr := by
  induction fuel with
  | zero =>
    intro i r lines hl _ _
    have : lines = [] := List.length_eq_zero.mp hl
    subst this
    simp only [load_rubric_loop, List.append_nil, Nat.add_zero]
    rw [← List.map_append, List.take_append_drop]
  | succ n ih =>
    intro i r lines hl hi hgood
    obtain ⟨l, ls, rfl⟩ : ∃ l ls, lines = l :: ls := by
      cases lines with
      | nil => simp at hl
      | cons l ls => exact ⟨l, ls, rfl⟩
    have hlt : i < r.length := by omega
    obtain ⟨g1, g2, g3⟩ := hgood l (List.mem_cons_self _ _)
    obtain ⟨b, hb, hcb⟩ := fgets_line (r.getD i []) l (render ls) g2 g3 g1
    have hr : render (l :: ls) = l ++ 10 :: render ls := rfl
    rw [load_rubric_loop, hr, hb]
    simp only
    rw [ih (i + 1) (r.set i (strip_newline b)) ls (by simpa using hl) (by simp; omega)
      (fun x hx => hgood x (List.mem_cons_of_mem _ hx))]
    have e1 : (r.set i (strip_newline b)).take (i + 1) = r.take i ++ [strip_newline b] := by
      have e0 : (r.take i).set i (strip_newline b) = r.take i :=
        List.set_eq_of_length_le (by simp)
      rw [List.take_succ, List.set_take, e0]
      simp [hlt]
    have e2 : (r.set i (strip_newline b)).drop (i + 1 + n) = r.drop (i + (n + 1)) := by
      rw [List.drop_set_of_lt _ _ (by omega)]
      congr 1
      omega
    rw [e1, e2]
    simp [hcb]

/-- C9 as stated, with lines of up to 127 characters, fails: a rubric in
shared memory whose first line has 127 characters (as `load_rubric` leaves it
for a file with a longer first line) is saved as 127 characters and a
newline; reading it back, `fgets` fills its buffer before the newline and the
newline becomes an empty second line, pushing `b` to the third. -/
theorem rubric_roundtrip_fails_at_127 :
    long_line_rubric.rubric.length = 5 ∧
    (∀ b ∈ long_line_rubric.rubric, strlen b ≤ 127 ∧ (10 : Nat) ∉ cstr b) ∧
    long_line_rubric.rubric.map cstr = [List.replicate 127 97, [98], [], [], []] ∧
    (save_rubric true long_line_rubric).1 = 0 ∧
    (load_rubric (save_rubric true long_line_rubric).2 zeroed).1 = 0 ∧
    (load_rubric (save_rubric true long_line_rubric).2 zeroed).2.rubric.map cstr =
      [List.replicate 127 97, [], [98], [], []] ∧
    (load_rubric (save_rubric true long_line_rubric).2 zeroed).2.rubric.map cstr ≠
      long_line_rubric.rubric.map cstr ∧
    (save_rubric true (load_rubric (save_rubric true long_line_rubric).2 zeroed).2).2 ≠
      (save_rubric true long_line_rubric).2 := by
  decide

/-- C9, amended to lines of at most 126 characters: for every rubric of 5
lines in shared memory, each at most 126 characters long and without a
newline, `save_rubric` succeeds on a writable file, `load_rubric` applied to
the text it wrote (into any shared structure) returns exactly the same 5
lines, and saving that result writes the same text again. -/
theorem rubric_roundtrip (sh sh0 : SharedData) (hlen : sh.rubric.length = 5)
    (hlen0 : sh0.rubric.length = 5)
    (hline : ∀ b ∈ sh.rubric, strlen b ≤ 126 ∧ (10 : Nat) ∉ cstr b) :
    ∃ text, save_rubric true sh = (0, some text) ∧
      text = render (sh.rubric.map cstr) ∧
      (load_rubric (some text) sh0).1 = 0 ∧
      (load_rubric (some text) sh0).2.rubric.length = 5 ∧
      (load_rubric (some text) sh0).2.rubric.map cstr = sh.rubric.map cstr ∧
      save_rubric true (load_rubric (some text) sh0).2 = (0, some text) := by
  have hsave : ∀ s : SharedData, s.rubric.length = 5 →
      save_rubric true s = (0, some (render (s.rubric.map cstr))) := by
    intro s hs
    unfold save_rubric
    rw [if_pos rfl, save_rubric_loop_eq _ _ _ _ (by simp [MAX_RUBRIC_LINES, hs])]
    have e : List.take MAX_RUBRIC_LINES (List.drop 0 s.rubric) = s.rubric := by
      rw [List.drop_zero]
      exact List.take_of_length_le (by simp [MAX_RUBRIC_LINES, hs])
    rw [e]
    rfl
  have hload : (load_rubric (some (render (sh.rubric.map cstr))) sh0).2.rubric.map cstr =
      sh.rubric.map cstr := by
    unfold load_rubric
    simp only
    rw [load_rubric_loop_render MAX_RUBRIC_LINES 0 sh0.rubric (sh.rubric.map cstr)
      (by simp [MAX_RUBRIC_LINES, hlen]) (by simp [MAX_RUBRIC_LINES, hlen0])]
    · have e : List.drop (0 + MAX_RUBRIC_LINES) sh0.rubric = [] :=
        List.drop_of_length_le (by simp [MAX_RUBRIC_LINES, hlen0])
      rw [e]
      simp
    · intro l hl
      obtain ⟨b, hb, rfl⟩ := List.mem_map.mp hl
      exact ⟨(hline b hb).1, (hline b hb).2, cstr_ne_zero b⟩
  have hl5 : (load_rubric (some (render (sh.rubric.map cstr))) sh0).2.rubric.length = 5 := by
    unfold load_rubric
    simp only
    rw [load_rubric_loop_length, hlen0]
  refine ⟨render (sh.rubric.map cstr), hsave sh hlen, rfl, rfl, hl5, hload, ?_⟩
  rw [hsave _ hl5, hload]

/-- Witness for C9 (amended): the rubric `q1,0`, `q2,0`, `q3,0` and two empty
lines, as `load_rubric` builds it, written and read back. -/
theorem rubric_roundtrip_witness :
    sample_rubric.rubric.map cstr = [[113, 49, 44, 48], [113, 50, 44, 48], [113, 51, 44, 48], [], []] ∧
    ∃ text, save_rubric true sample_rubric = (0, some text) ∧
      text = render (sample_rubric.rubric.map cstr) ∧
      (load_rubric (some text) zeroed).1 = 0 ∧
      (load_rubric (some text) zeroed).2.rubric.length = 5 ∧
      (load_rubric (some text) zeroed).2.rubric.map cstr = sample_rubric.rubric.map cstr ∧
      save_rubric true (load_rubric (some text) zeroed).2 = (0, some text) :=
  ⟨by decide, rubric_roundtrip sample_rubric zeroed (by decide) (by decide) (by decide)⟩

/-! ### The rubric correction -/

theorem getD_ne_zero_of_lt_strlen (b : Buf) (j : Nat) (h : j < strlen b) : b.getD j 0 ≠ 0 := by
  rw [← getD_cstr b j h]
  have hj : j < (cstr b).length := h
  rw [List.getD_eq_getElem _ _ hj]
  exact cstr_ne_zero b _ (List.getElem_mem _)

/-- The byte at offset `strlen` is the terminator (or lies behind the end of
a buffer that has none, which reads as NUL here). -/
theorem getD_strlen (b : Buf) : b.getD (strlen b) 0 = 0 := by
  unfold strlen
  induction b with
  | nil => rfl
  | cons x rest ih =>
    by_cases hx : x = 0
    · simp [cstr, hx]
    · simp only [cstr, if_neg hx, List.length_cons, List.getD_cons_succ]
      exact ih

theorem strchr_some (c : Nat) (hc : c ≠ 0) (b : Buf) : ∀ i, strchr b c = some i →
    i < strlen b ∧ b.getD i 0 = c ∧ ∀ j, j < i → b.getD j 0 ≠ c := by
  unfold strlen
  induction b with
  | nil => intro i h; simp [strchr] at h
  | cons x rest ih =>
    intro i h
    by_cases hx : x = c
    · have hx0 : x ≠ 0 := hx ▸ hc
      simp only [strchr, if_pos hx, Option.some.injEq] at h
      subst h
      refine ⟨by simp [cstr, hx0], by simpa using hx, fun j hj => absurd hj (Nat.not_lt_zero _)⟩
    · by_cases hx0 : x = 0
      · simp only [strchr, if_neg hx, if_pos hx0] at h
        exact absurd h (by simp)
      · simp only [strchr, if_neg hx, if_neg hx0, Option.map_eq_some'] at h
        obtain ⟨k, hk, rfl⟩ := h
        obtain ⟨k1, k2, k3⟩ := ih k hk
        refine ⟨by simpa [cstr, hx0] using k1, by simpa using k2, ?_⟩
        intro j hj
        cases j with
        | zero => simpa using hx
        | succ m =>
          simp only [List.getD_cons_succ]
          exact k3 m (by omega)

theorem strchr_none (c : Nat) (b : Buf) : strchr b c = none →
    ∀ j, j < strlen b → b.getD j 0 ≠ c := by
  unfold strlen
  induction b with
  | nil => intro _ j hj; simp [cstr] at hj
  | cons x rest ih =>
    intro h j hj
    by_cases hx : x = c
    · simp [strchr, hx] at h
    · by_cases hx0 : x = 0
      · simp [cstr, hx0] at hj
      · simp only [strchr, if_neg hx, if_neg hx0, Option.map_eq_none'] at h
        simp only [cstr, if_neg hx0, List.length_cons] at hj
        cases j with
        | zero => simpa using hx
        | succ m =>
          simp only [List.getD_cons_succ]
          exact ih h m (by omega)

/-- C10 as stated fails: on the line `q1,10` the correction changes the `1`
behind the comma and leaves the trailing `0`, the last character of the line,
as it is. -/
theorem correction_misses_trailing_character :
    ([113, 49, 44, 49, 48, 0] : Buf).getD 0 0 ≠ 0 ∧ 0 % 4 = 0 ∧
    (∃ i, i + 1 < strlen [113, 49, 44, 49, 48, 0] ∧ ([113, 49, 44, 49, 48, 0] : Buf).getD i 0 = 44) ∧
    strlen [113, 49, 44, 49, 48, 0] = 5 ∧
    review_line [113, 49, 44, 49, 48, 0] 0 = [113, 49, 44, 50, 48, 0] ∧
    (review_line [113, 49, 44, 49, 48, 0] 0).getD (strlen [113, 49, 44, 49, 48, 0] - 1) 0 =
      ([113, 49, 44, 49, 48, 0] : Buf).getD (strlen [113, 49, 44, 49, 48, 0] - 1) 0 ∧
    (review_line [113, 49, 44, 49, 48, 0] 0).getD 3 0 ≠ ([113, 49, 44, 49, 48, 0] : Buf).getD 3 0 := by
  refine ⟨by decide, by decide, ⟨2, by decide, by decide⟩, by decide, by decide, by decide, by decide⟩

/-- C10, amended: on a non-empty rubric line on which the 1-in-4 correction
fires, if the line contains a `,` followed by at least one more character,
the character immediately behind the first `,` (offset `p + 1`) is
incremented by one, modulo 256, and every other byte of the line is
unchanged; if the line has no `,` or nothing follows it, the line is
unchanged. -/
theorem review_line_correct (line : Buf) (r : Nat) (hne : line.getD 0 0 ≠ 0) (hr : r % 4 = 0) :
    ((∃ i, i + 1 < strlen line ∧ line.getD i 0 = 44) →
      ∃ p, p + 1 < strlen line ∧ line.getD p 0 = 44 ∧ (∀ j, j < p → line.getD j 0 ≠ 44) ∧
        (review_line line r).length = line.length ∧
        (review_line line r).getD (p + 1) 0 = (line.getD (p + 1) 0 + 1) % 256 ∧
        ∀ j, j ≠ p + 1 → (review_line line r).getD j 0 = line.getD j 0) ∧
    ((¬ ∃ i, i + 1 < strlen line ∧ line.getD i 0 = 44) → review_line line r = line) := by
  have hrev : review_line line r = correct_line line := by
    unfold review_line
    rw [if_neg hne, if_pos hr]
  rw [hrev]
  unfold correct_line
  cases hs : strchr line 44 with
  | none =>
    refine ⟨?_, fun _ => rfl⟩
    rintro ⟨i, hi, h44⟩
    exact absurd h44 (strchr_none 44 line hs i (by omega))
  | some p =>
    obtain ⟨p1, p2, p3⟩ := strchr_some 44 (by decide) line p hs
    by_cases hnext : line.getD (p + 1) 0 ≠ 0
    · have hp : p + 1 < strlen line := by
        have hz := getD_strlen line
        by_contra hcon
        have : p + 1 = strlen line := by omega
        rw [this] at hnext
        exact hnext hz
      have hplen : p + 1 < line.length := lt_of_lt_of_le hp (cstr_length_le line)
      simp only [if_pos hnext]
      refine ⟨fun _ => ⟨p, hp, p2, p3, by simp, ?_, ?_⟩, fun hno => absurd ⟨p, hp, p2⟩ hno⟩
      · simp [List.getD_eq_getElem?_getD, List.getElem?_set, hplen]
      · intro j hj
        simp [List.getD_eq_getElem?_getD, List.getElem?_set, Ne.symm hj]
    · dsimp only
      rw [if_neg hnext]
      refine ⟨?_, fun _ => rfl⟩
      rintro ⟨i, hi, h44⟩
      exfalso
      have hpi : p ≤ i := by
        by_contra hcon
        exact p3 i (by omega) h44
      exact hnext (getD_ne_zero_of_lt_strlen line (p + 1) (by omega))

/-- Witness for C10 (amended): the line `q1,10` with a correction firing. -/
theorem review_line_correct_witness :
    review_line [113, 49, 44, 49, 48, 0] 4 = [113, 49, 44, 50, 48, 0] ∧
    ∃ p, p + 1 < strlen [113, 49, 44, 49, 48, 0] ∧ ([113, 49, 44, 49, 48, 0] : Buf).getD p 0 = 44 ∧
      (∀ j, j < p → ([113, 49, 44, 49, 48, 0] : Buf).getD j 0 ≠ 44) ∧
      (review_line [113, 49, 44, 49, 48, 0] 4).length = ([113, 49, 44, 49, 48, 0] : Buf).length ∧
      (review_line [113, 49, 44, 49, 48, 0] 4).getD (p + 1) 0 =
        (([113, 49, 44, 49, 48, 0] : Buf).getD (p + 1) 0 + 1) % 256 ∧
      ∀ j, j ≠ p + 1 →
        (review_line [113, 49, 44, 49, 48, 0] 4).getD j 0 = ([113, 49, 44, 49, 48, 0] : Buf).getD j 0 :=
  ⟨by decide,
   (review_line_correct [113, 49, 44, 49, 48, 0] 4 (by decide) (by decide)).1 ⟨2, by decide, by decide⟩⟩

/-! ### Sessions of two workers -/

/-- No path of `load_exam` clears the terminate flag. -/
theorem load_exam_keeps_terminate (exams : List (Option (List Nat))) (sh : SharedData) (idx : Int)
    (ht : sh.terminate ≠ 0) : (load_exam exams sh idx).2.terminate ≠ 0 := by
  unfold load_exam
  split_ifs
  · exact one_ne_zero
  · split
    · exact one_ne_zero
    · split
      · exact one_ne_zero
      · dsimp only
        split_ifs
        · exact one_ne_zero
        · exact ht

/-- No transition of a worker clears the terminate flag. -/
theorem ta_step_keeps_terminate (env : Env) (s s1 : Session) (w w1 : Worker) (r : Nat)
    (h : ta_step env s w r = some (s1, w1)) (ht : s.sh.terminate ≠ 0) :
    s1.sh.terminate ≠ 0 := by
  unfold ta_step at h
  cases hpc : w.pc <;> simp only [hpc] at h
  all_goals first
    | (split at h <;> simp only [Option.some.injEq, Prod.mk.injEq, reduceCtorEq] at h <;>
        obtain ⟨rfl, _⟩ := h <;> first | exact ht | exact one_ne_zero)
    | (simp only [Option.some.injEq, Prod.mk.injEq, reduceCtorEq] at h <;>
        obtain ⟨rfl, _⟩ := h <;> first | exact ht | exact load_exam_keeps_terminate _ _ _ ht)

/-- Once the terminate flag is set it stays set along every schedule. -/
theorem run_keeps_terminate (env : Env) (schedule : List (Nat × Nat)) : ∀ (s s1 : Session),
    run env s schedule = some s1 → s.sh.terminate ≠ 0 → s1.sh.terminate ≠ 0 := by
  induction schedule with
  | nil =>
    intro s s1 h ht
    simp only [run, Option.some.injEq] at h
    exact h ▸ ht
  | cons x rest ih =>
    intro s s1 h ht
    obtain ⟨id, r⟩ := x
    simp only [run] at h
    cases hstep : step env s id r with
    | none => simp [hstep] at h
    | some s2 =>
      rw [hstep] at h
      refine ih s2 s1 h ?_
      unfold step at hstep
      cases hw : s.workers[id]? with
      | none => simp [hw] at hstep
      | some w =>
        simp only [hw] at hstep
        cases hta : ta_step env s w r with
        | none => simp [hta] at hstep
        | some p =>
          obtain ⟨s3, w3⟩ := p
          simp only [hta, Option.some.injEq] at hstep
          rw [← hstep]
          exact ta_step_keeps_terminate env s s3 w w3 r hta ht

/-- C2: a schedule of two workers on three exams on which the exam-advance
section runs while no question of the loaded exam is marked.  Both workers
found exam 0 complete; worker 0 loaded exam 1 (`1002`); worker 1, which
tested `all_done` before that load, now enters the section with all five
statuses `Untouched` and replaces exam 1 by exam 2 (`1003`). -/
theorem exam_advance_with_unmarked_questions :
    (session_after three_exams (worker0_marks_exam ++ worker1_finds_done)).map observe =
      some ([PC.waitExam, PC.waitExam], [-1, -1], [49, 48, 48, 49], [2, 2, 2, 2, 2], 0, 0) ∧
    (session_after three_exams (both_done_worker0_advances ++ [(1, 1)])).map observe =
      some ([PC.checkTermLoaded, PC.advRead], [-1, -1], [49, 48, 48, 50], [0, 0, 0, 0, 0], 1, 0) ∧
    (session_after three_exams (both_done_worker0_advances ++ [(1, 1), (1, 1), (1, 1)])).map observe =
      some ([PC.checkTermLoaded, PC.signalExam], [-1, -1], [49, 48, 48, 51], [0, 0, 0, 0, 0], 2, 0) := by
  exact ⟨rfl, rfl, rfl⟩

/-- C3: a schedule of two workers on three exams on which the mark-corrected
step hits a question that is `Untouched`.  After the double advance of C2,
worker 0 picks question 0 of exam 1 (`Progressing`), worker 1 loads exam 2
and resets the table, and worker 0 then writes `Corrected` over the
`Untouched` entry: under exam 2 the status of question 0 goes from
`Untouched` to `Corrected` without ever being `Progressing`. -/
theorem mark_corrected_on_untouched_question :
    (session_after three_exams (both_done_worker0_advances ++ List.replicate 16 (0, 1))).map observe =
      some ([PC.waitMark, PC.waitExam], [0, -1], [49, 48, 48, 50], [1, 0, 0, 0, 0], 1, 0) ∧
    (session_after three_exams (both_done_worker0_advances ++ List.replicate 16 (0, 1) ++
        List.replicate 3 (1, 1) ++ [(0, 1)])).map observe =
      some ([PC.markCorrected, PC.signalExam], [0, -1], [49, 48, 48, 51], [0, 0, 0, 0, 0], 2, 0) ∧
    (session_after three_exams (both_done_worker0_advances ++ List.replicate 16 (0, 1) ++
        List.replicate 3 (1, 1) ++ [(0, 1), (0, 1)])).map observe =
      some ([PC.signalMark, PC.signalExam], [0, -1], [49, 48, 48, 51], [2, 0, 0, 0, 0], 2, 0) := by
  exact ⟨rfl, rfl, rfl⟩

/-- C5: a schedule of two workers on the exams `1001`, `9999`, `1002` on which
an exam is loaded after the sentinel.  Worker 0 loads the sentinel exam and
the terminate flag is set; worker 1, which tested the flag before that,
enters the exam-advance section and `load_exam` loads exam 2 (`1002`).  The
flag stays set. -/
theorem exam_loaded_after_sentinel :
    (session_after sentinel_second both_done_worker0_advances).map observe =
      some ([PC.checkTermLoaded, PC.waitExam], [-1, -1], [57, 57, 57, 57], [0, 0, 0, 0, 0], 1, 1) ∧
    (session_after sentinel_second (both_done_worker0_advances ++ [(1, 1), (1, 1)])).map observe =
      some ([PC.checkTermLoaded, PC.advLoad], [-1, -1], [57, 57, 57, 57], [0, 0, 0, 0, 0], 2, 1) ∧
    (session_after sentinel_second (both_done_worker0_advances ++ [(1, 1), (1, 1), (1, 1)])).map observe =
      some ([PC.checkTermLoaded, PC.signalExam], [-1, -1], [49, 48, 48, 50], [0, 0, 0, 0, 0], 2, 1) := by
  exact ⟨rfl, rfl, rfl⟩

/-- C8: a session whose rubric file cannot be opened for writing.  Worker 0
reaches `save_rubric`, which returns `-1`; the worker drops the result, the
terminate flag stays clear and the file is not written, and the worker goes
on to pick question 0. -/
theorem save_failure_is_ignored :
    (session_after rubric_read_only (List.replicate 8 (0, 1))).map observe =
      some ([PC.saveRubric, PC.checkTerm], [-1, -1], [49, 48, 48, 49], [0, 0, 0, 0, 0], 0, 0) ∧
    (session_after rubric_read_only (List.replicate 8 (0, 1))).map
        (fun s => save_rubric rubric_read_only.rubric_writable s.sh) = some (-1, none) ∧
    (session_after rubric_read_only (List.replicate 9 (0, 1))).map observe =
      some ([PC.signalRubric, PC.checkTerm], [-1, -1], [49, 48, 48, 49], [0, 0, 0, 0, 0], 0, 0) ∧
    (session_after rubric_read_only (List.replicate 9 (0, 1))).map (fun s => s.rubric_file) =
      some sample_rubric_file ∧
    (session_after rubric_read_only (List.replicate 14 (0, 1))).map observe =
      some ([PC.afterScan, PC.checkTerm], [0, -1], [49, 48, 48, 49], [1, 0, 0, 0, 0], 0, 0) := by
  exact ⟨rfl, rfl, rfl, rfl, rfl⟩

/-! ### One review pass -/

/-- One iteration of the review loop, whatever `rand()` gives: the line keeps
its length, an empty line is not touched, a non-empty line stays non-empty,
and a byte that changes is the one right behind the first `,` of a non-empty
line. -/
theorem review_line_changes (line : Buf) (r : Nat) :
    (review_line line r).length = line.length ∧
    (line.getD 0 0 = 0 → review_line line r = line) ∧
    (line.getD 0 0 ≠ 0 → (review_line line r).getD 0 0 ≠ 0) ∧
    (∀ j, (review_line line r).getD j 0 ≠ line.getD j 0 →
      line.getD 0 0 ≠ 0 ∧ ∃ p, strchr line 44 = some p ∧ j = p + 1) := by
  unfold review_line
  by_cases h0 : line.getD 0 0 = 0
  · rw [if_pos h0]
    exact ⟨rfl, fun _ => rfl, fun h => absurd h0 h, fun j hj => absurd rfl hj⟩
  · rw [if_neg h0]
    by_cases hr : r % 4 = 0
    · rw [if_pos hr]
      unfold correct_line
      cases hs : strchr line 44 with
      | none => exact ⟨rfl, fun h => absurd h h0, fun h => h, fun j hj => absurd rfl hj⟩
      | some p =>
        dsimp only
        by_cases hnext : line.getD (p + 1) 0 ≠ 0
        · rw [if_pos hnext]
          refine ⟨by simp, fun h => absurd h h0, fun _ => ?_, fun j hj => ⟨h0, p, rfl, ?_⟩⟩
          · simpa [List.getD_eq_getElem?_getD, List.getElem?_set] using h0
          · by_contra hne
            apply hj
            simp [List.getD_eq_getElem?_getD, List.getElem?_set, Ne.symm hne]
        · rw [if_neg hnext]
          exact ⟨rfl, fun h => absurd h h0, fun h => h, fun j hj => absurd rfl hj⟩
    · rw [if_neg hr]
      exact ⟨rfl, fun h => absurd h h0, fun h => h, fun j hj => absurd rfl hj⟩

/-- A pass over five lines reviews each of them once, line `q` with the
outcome `rand q`. -/
theorem review_pass_five (a b c d e : Buf) (rand : Nat → Nat) :
    review_pass [a, b, c, d, e] rand =
      [review_line a (rand 0), review_line b (rand 1), review_line c (rand 2),
        review_line d (rand 3), review_line e (rand 4)] := rfl

/-- A review iteration of a worker in the transition system is `review_line`
on the line its loop variable points at. -/
theorem step_review (env : Env) (s : Session) (id r : Nat) (w : Worker)
    (hw : s.workers[id]? = some w) (hpc : w.pc = PC.review) (hq : w.q < MAX_RUBRIC_LINES) :
    step env s id r = some
      { s with
        sh := { s.sh with
          rubric := s.sh.rubric.set w.q (review_line (s.sh.rubric.getD w.q []) r) },
        workers := s.workers.set id { w with q := w.q + 1 } } := by
  obtain ⟨pc, q, picked, done, next⟩ := w
  simp only at hpc hq
  subst hpc
  unfold step
  rw [hw]
  simp only [ta_step, if_pos hq]

/-- The review iterations of a worker, run one after the other in the
transition system, are `review_loop` on the shared rubric. -/
theorem run_review_loop (env : Env) (id : Nat) (rand : Nat → Nat) (fuel : Nat) :
    ∀ (s : Session) (w : Worker), s.workers[id]? = some w → w.pc = PC.review →
      w.q + fuel ≤ MAX_RUBRIC_LINES →
      ∃ s1, run env s ((List.range' w.q fuel).map (fun q => (id, rand q))) = some s1 ∧
        s1.sh.rubric = review_loop s.sh.rubric rand w.q fuel ∧
        s1.workers[id]? = some { w with q := w.q + fuel } := by
  induction fuel with
  | zero =>
    intro s w hw _ _
    exact ⟨s, rfl, rfl, hw⟩
  | succ n ih =>
    intro s w hw hpc hq
    have hid : id < s.workers.length := by
      by_contra hcon
      rw [List.getElem?_eq_none (by omega)] at hw
      exact absurd hw (by simp)
    have hstep := step_review env s id (rand w.q) w hw hpc (by omega)
    obtain ⟨s1, h1, h2, h3⟩ := ih
      { s with
        sh := { s.sh with
          rubric := s.sh.rubric.set w.q (review_line (s.sh.rubric.getD w.q []) (rand w.q)) },
        workers := s.workers.set id { w with q := w.q + 1 } }
      { w with q := w.q + 1 }
      (show (s.workers.set id { w with q := w.q + 1 })[id]? = some { w with q := w.q + 1 } by
        simp [hid])
      hpc (show w.q + 1 + n ≤ MAX_RUBRIC_LINES by omega)
    refine ⟨s1, ?_, ?_, ?_⟩
    · rw [List.range'_succ, List.map_cons]
      simp only [run]
      rw [hstep]
      exact h1
    · rw [h2]
      rfl
    · rw [h3]
      simp only [Nat.add_assoc, Nat.add_comm 1 n]

theorem non_empty_lines_five (a b c d e a1 b1 c1 d1 e1 : Buf)
    (ha : a1.getD 0 0 ≠ 0 ↔ a.getD 0 0 ≠ 0) (hb : b1.getD 0 0 ≠ 0 ↔ b.getD 0 0 ≠ 0)
    (hc : c1.getD 0 0 ≠ 0 ↔ c.getD 0 0 ≠ 0) (hd : d1.getD 0 0 ≠ 0 ↔ d.getD 0 0 ≠ 0)
    (he : e1.getD 0 0 ≠ 0 ↔ e.getD 0 0 ≠ 0) :
    non_empty_lines [a1, b1, c1, d1, e1] = non_empty_lines [a, b, c, d, e] := by
  unfold non_empty_lines
  simp only [List.countP_cons, List.countP_nil, bne_iff_ne, ha, hb, hc, hd, he]

/-- The lines `save_rubric` writes that are not empty are the lines of the
rubric that are not empty. -/
theorem countP_cstr_non_empty (rubric : List Buf) :
    (rubric.map cstr).countP (fun l => l != []) = non_empty_lines rubric := by
  unfold non_empty_lines
  induction rubric with
  | nil => rfl
  | cons b rest ih =>
    rw [List.map_cons, List.countP_cons, List.countP_cons, ih]
    congr 1
    cases b with
    | nil => simp [cstr]
    | cons x xs =>
      by_cases hx : x = 0
      · simp [cstr, hx]
      · simp [cstr, hx]

/-- Writing a byte other than NUL inside the string changes that character
of the string and nothing else. -/
theorem cstr_set_ne_zero (v : Nat) (hv : v ≠ 0) (b : Buf) : ∀ i, i < strlen b →
    cstr (b.set i v) = (cstr b).set i v := by
  unfold strlen
  induction b with
  | nil => intro i hi; simp [cstr] at hi
  | cons x rest ih =>
    intro i hi
    by_cases hx : x = 0
    · simp [cstr, hx] at hi
    · simp only [cstr, if_neg hx, List.length_cons] at hi ⊢
      cases i with
      | zero => simp [cstr, hv]
      | succ j =>
        simp only [List.set_cons_succ, cstr, if_neg hx]
        rw [ih j (by omega)]

/-- A line without a newline, on which the increment does not produce one,
holds no newline behind a review iteration. -/
theorem review_line_no_newline (line : Buf) (r : Nat) (h1 : (10 : Nat) ∉ cstr line)
    (h2 : increment_gives_newline line = false) : (10 : Nat) ∉ cstr (review_line line r) := by
  unfold review_line
  split_ifs
  · exact h1
  · unfold correct_line
    cases hs : strchr line 44 with
    | none => exact h1
    | some p =>
      dsimp only
      obtain ⟨p1, _, _⟩ := strchr_some 44 (by decide) line p hs
      by_cases hnext : line.getD (p + 1) 0 ≠ 0
      · rw [if_pos hnext]
        have hp : p + 1 < strlen line := by
          have hz := getD_strlen line
          by_contra hcon
          have : p + 1 = strlen line := by omega
          rw [this] at hnext
          exact hnext hz
        have hv : (line.getD (p + 1) 0 + 1) % 256 ≠ 10 := by
          unfold increment_gives_newline at h2
          rw [hs] at h2
          simpa using h2
        by_cases hzero : (line.getD (p + 1) 0 + 1) % 256 = 0
        · rw [hzero, cstr_set_zero line _ hp]
          exact fun hmem => h1 (List.mem_of_mem_take hmem)
        · rw [cstr_set_ne_zero _ hzero line _ hp]
          intro hmem
          rcases List.mem_or_eq_of_mem_set hmem with h | h
          · exact h1 h
          · exact hv h.symm
      · rw [if_neg hnext]
        exact h1
  · exact h1

theorem text_lines_from_append (l rest : List Nat) (h : (10 : Nat) ∉ l) : ∀ line,
    text_lines_from line (l ++ 10 :: rest) = (line ++ l) :: text_lines_from [] rest := by
  induction l with
  | nil =>
    intro line
    simp [text_lines_from]
  | cons c cs ih =>
    intro line
    have hc : c ≠ 10 := fun e => h (e ▸ List.mem_cons_self _ _)
    have hcs : (10 : Nat) ∉ cs := fun e => h (List.mem_cons_of_mem _ e)
    rw [List.cons_append]
    simp only [text_lines_from, if_neg hc]
    rw [ih hcs]
    simp

/-- The lines of the text `save_rubric` writes are the strings it wrote, as
long as none of them holds a newline. -/
theorem text_lines_render (lines : List (List Nat)) (h : ∀ l ∈ lines, (10 : Nat) ∉ l) :
    text_lines (render lines) = lines := by
  unfold text_lines
  induction lines with
  | nil => simp [render, text_lines_from]
  | cons l ls ih =>
    have hr : render (l :: ls) = l ++ 10 :: render ls := rfl
    rw [hr, text_lines_from_append l _ (h l (List.mem_cons_self _ _)),
      ih (fun x hx => h x (List.mem_cons_of_mem _ hx))]
    simp

/-- C13 as stated fails on the saved text: on the rubric `a,<TAB>b`, `q2,0`
and three empty lines, with the correction firing on the first line, the TAB
behind the comma is incremented to a newline.  The rubric has two non-empty
lines before the review and the text `save_rubric` wrote before has two; the
text it writes behind the review has six lines, three of them non-empty. -/
theorem saved_text_gains_line_at_tab :
    tab_rubric.rubric.length = 5 ∧
    tab_rubric.rubric.map cstr = [[97, 44, 9, 98], [113, 50, 44, 48], [], [], []] ∧
    non_empty_lines tab_rubric.rubric = 2 ∧
    (save_rubric true tab_rubric).2.map non_empty_text_lines = some 2 ∧
    (review_pass tab_rubric.rubric (fun q => q)).map cstr =
      [[97, 44, 10, 98], [113, 50, 44, 48], [], [], []] ∧
    save_rubric true { tab_rubric with rubric := review_pass tab_rubric.rubric (fun q => q) } =
      (0, some [97, 44, 10, 98, 10, 113, 50, 44, 48, 10, 10, 10, 10]) ∧
    text_lines [97, 44, 10, 98, 10, 113, 50, 44, 48, 10, 10, 10, 10] =
      [[97, 44], [98], [113, 50, 44, 48], [], [], []] ∧
    (save_rubric true
        { tab_rubric with rubric := review_pass tab_rubric.rubric (fun q => q) }).2.map
      non_empty_text_lines = some 3 ∧
    (save_rubric true
        { tab_rubric with rubric := review_pass tab_rubric.rubric (fun q => q) }).2.map
      non_empty_text_lines ≠ some (non_empty_lines tab_rubric.rubric) := by
  refine ⟨by decide, by decide, by decide, by decide, by decide, by decide, by decide,
    by decide, by decide⟩

/-- C13, amended: one review pass of `ta` over a rubric of 5 lines, for every
sequence of outcomes of `rand()` (a byte 255 behind the comma wraps to NUL
like any other increment).  There are 5 lines afterwards; every line keeps
its length; an empty line is exactly as before; a non-empty line is
non-empty; and a byte that differs from before is the byte right behind the
first `,` of a non-empty line.  Hence the rubric handed to `save_rubric` has
as many non-empty lines as the rubric before the review, and so have the
five strings `save_rubric` writes.  The saved text itself has 5 lines, as
many of them non-empty as the rubric before the review, whenever no line
held a newline before the review and on no line the increment of the byte
behind the first `,` gives a newline (a TAB there). -/
theorem review_pass_spec (sh : SharedData) (rand : Nat → Nat) (hlen : sh.rubric.length = 5) :
    (review_pass sh.rubric rand).length = 5 ∧
    (∀ q, q < 5 →
      ((review_pass sh.rubric rand).getD q []).length = (sh.rubric.getD q []).length ∧
      ((sh.rubric.getD q []).getD 0 0 = 0 →
        (review_pass sh.rubric rand).getD q [] = sh.rubric.getD q []) ∧
      ((sh.rubric.getD q []).getD 0 0 ≠ 0 →
        ((review_pass sh.rubric rand).getD q []).getD 0 0 ≠ 0) ∧
      (∀ j, ((review_pass sh.rubric rand).getD q []).getD j 0 ≠ (sh.rubric.getD q []).getD j 0 →
        (sh.rubric.getD q []).getD 0 0 ≠ 0 ∧
          ∃ p, strchr (sh.rubric.getD q []) 44 = some p ∧ j = p + 1)) ∧
    non_empty_lines (review_pass sh.rubric rand) = non_empty_lines sh.rubric ∧
    save_rubric true { sh with rubric := review_pass sh.rubric rand } =
      (0, some (render ((review_pass sh.rubric rand).map cstr))) ∧
    ((review_pass sh.rubric rand).map cstr).countP (fun l => l != []) =
      (sh.rubric.map cstr).countP (fun l => l != []) ∧
    ((∀ line ∈ sh.rubric, (10 : Nat) ∉ cstr line ∧ increment_gives_newline line = false) →
      text_lines (render ((review_pass sh.rubric rand).map cstr)) =
        (review_pass sh.rubric rand).map cstr ∧
      (text_lines (render ((review_pass sh.rubric rand).map cstr))).length = 5 ∧
      non_empty_text_lines (render ((review_pass sh.rubric rand).map cstr)) =
        non_empty_lines sh.rubric ∧
      non_empty_text_lines (render ((review_pass sh.rubric rand).map cstr)) =
        non_empty_text_lines (render (sh.rubric.map cstr))) := by
  obtain ⟨a, b, c, d, e, hr⟩ : ∃ a b c d e, sh.rubric = [a, b, c, d, e] := by
    match h : sh.rubric, hlen with
    | [a, b, c, d, e], _ => exact ⟨a, b, c, d, e, rfl⟩
  rw [hr, review_pass_five]
  have iff_of : ∀ (l : Buf) (r : Nat), (review_line l r).getD 0 0 ≠ 0 ↔ l.getD 0 0 ≠ 0 := by
    intro l r
    obtain ⟨_, h2, h3, _⟩ := review_line_changes l r
    constructor
    · intro h hz
      rw [h2 hz] at h
      exact h hz
    · exact h3
  have hcount : non_empty_lines [review_line a (rand 0), review_line b (rand 1),
      review_line c (rand 2), review_line d (rand 3), review_line e (rand 4)] =
      non_empty_lines [a, b, c, d, e] :=
    non_empty_lines_five _ _ _ _ _ _ _ _ _ _ (iff_of _ _) (iff_of _ _) (iff_of _ _)
      (iff_of _ _) (iff_of _ _)
  refine ⟨rfl, ?_, hcount, ?_, ?_, ?_⟩
  · intro q hq
    have hcases : q = 0 ∨ q = 1 ∨ q = 2 ∨ q = 3 ∨ q = 4 := by omega
    rcases hcases with h | h | h | h | h <;> subst h <;> exact review_line_changes _ _
  · unfold save_rubric
    rw [if_pos rfl, save_rubric_loop_eq _ _ _ _ (by simp [MAX_RUBRIC_LINES])]
    rfl
  · rw [countP_cstr_non_empty, countP_cstr_non_empty, hcount]
  · intro hgood
    have hbefore : ∀ l ∈ [a, b, c, d, e].map cstr, (10 : Nat) ∉ l := by
      intro l hl
      obtain ⟨x, hx, rfl⟩ := List.mem_map.mp hl
      exact (hgood x hx).1
    have hafter : ∀ l ∈ [review_line a (rand 0), review_line b (rand 1), review_line c (rand 2),
        review_line d (rand 3), review_line e (rand 4)].map cstr, (10 : Nat) ∉ l := by
      intro l hl
      simp only [List.map_cons, List.map_nil, List.mem_cons, List.mem_singleton,
        List.not_mem_nil, or_false] at hl
      rcases hl with rfl | rfl | rfl | rfl | rfl
      · exact review_line_no_newline _ _ (hgood a (by simp)).1 (hgood a (by simp)).2
      · exact review_line_no_newline _ _ (hgood b (by simp)).1 (hgood b (by simp)).2
      · exact review_line_no_newline _ _ (hgood c (by simp)).1 (hgood c (by simp)).2
      · exact review_line_no_newline _ _ (hgood d (by simp)).1 (hgood d (by simp)).2
      · exact review_line_no_newline _ _ (hgood e (by simp)).1 (hgood e (by simp)).2
    have hn : non_empty_text_lines (render ([review_line a (rand 0), review_line b (rand 1),
        review_line c (rand 2), review_line d (rand 3), review_line e (rand 4)].map cstr)) =
        non_empty_lines [a, b, c, d, e] := by
      unfold non_empty_text_lines
      rw [text_lines_render _ hafter, countP_cstr_non_empty, hcount]
    refine ⟨text_lines_render _ hafter, ?_, hn, ?_⟩
    · rw [text_lines_render _ hafter]
      rfl
    · rw [hn]
      unfold non_empty_text_lines
      rw [text_lines_render _ hbefore, countP_cstr_non_empty]

/-- Witness for C13 (amended): the rubric `q1,0`, `q2,0`, `q3,0` and two empty
lines, none with a newline or a TAB behind its comma, with corrections firing
on the first and the last line; and a line whose byte behind the comma is
255, which wraps to NUL and leaves `,` as the line. -/
theorem review_pass_spec_witness :
    (review_pass sample_rubric.rubric (fun q => q)).map cstr =
      [[113, 49, 44, 49], [113, 50, 44, 48], [113, 51, 44, 48], [], []] ∧
    non_empty_lines sample_rubric.rubric = 3 ∧
    review_line [44, 255, 55, 0] 0 = [44, 0, 55, 0] ∧
    non_empty_lines (review_pass sample_rubric.rubric (fun q => q)) =
      non_empty_lines sample_rubric.rubric ∧
    (∀ line ∈ sample_rubric.rubric,
      (10 : Nat) ∉ cstr line ∧ increment_gives_newline line = false) ∧
    non_empty_text_lines (render ((review_pass sample_rubric.rubric (fun q => q)).map cstr)) =
      non_empty_lines sample_rubric.rubric :=
  ⟨by decide, by decide, by decide,
    (review_pass_spec sample_rubric (fun q => q) (by decide)).2.2.1,
    by decide,
    ((review_pass_spec sample_rubric (fun q => q) (by decide)).2.2.2.2.2 (by decide)).2.2.1⟩

/-! ### The locking discipline of one worker -/

theorem sem_event_same (sem : Sem) (v : Nat) : sem_event sem v v = [] := by
  simp [sem_event]

theorem sem_event_wait (sem : Sem) (v v1 : Nat) (h : sem_wait_one v = some v1) :
    sem_event sem v v1 = [Event.wait sem] := by
  unfold sem_wait_one at h
  split_ifs at h with hv
  simp only [Option.some.injEq] at h
  subst h
  have : v - 1 < v := by omega
  simp [sem_event, this]

theorem sem_event_signal (sem : Sem) (v : Nat) :
    sem_event sem v (sem_signal_one v) = [Event.signal sem] := by
  simp [sem_event, sem_signal_one]

/-- Every transition of a worker keeps the discipline: from the semaphore held
at its control point, the events of the transition are allowed and lead to
the semaphore held at the next control point. -/
theorem ta_step_discipline (env : Env) (s s1 : Session) (w w1 : Worker) (r : Nat)
    (h : ta_step env s w r = some (s1, w1)) (rest : List Event) :
    discipline (sem_held_at w.pc) (ta_events s w s1 ++ rest) =
      discipline (sem_held_at w1.pc) rest := by
  obtain ⟨pc, q, picked, done, next⟩ := w
  cases pc <;> simp only [ta_step] at h
  case checkTerm | innerTest | checkTermMarked | advTest | advRead | checkTermLoaded =>
    split_ifs at h <;> simp only [Option.some.injEq, Prod.mk.injEq] at h <;>
      obtain ⟨rfl, rfl⟩ := h <;>
      simp [ta_events, sem_event_same, ta_delay, sem_held_at]
  case review =>
    split_ifs at h with hq <;> simp only [Option.some.injEq, Prod.mk.injEq] at h <;>
      obtain ⟨rfl, rfl⟩ := h
    · simp only [ta_events, sem_event_same, ta_delay, sem_held_at, List.nil_append]
      split_ifs <;> simp [discipline]
    · simp [ta_events, sem_event_same, ta_delay, sem_held_at, hq]
  case afterScan =>
    split_ifs at h with hp <;> simp only [Option.some.injEq, Prod.mk.injEq] at h <;>
      obtain ⟨rfl, rfl⟩ := h <;>
      simp [ta_events, sem_event_same, ta_delay, sem_held_at, discipline, hp]
  case waitRubric | waitSelect | waitMark | waitExam =>
    split at h
    · rename_i v hv
      simp only [Option.some.injEq, Prod.mk.injEq] at h
      obtain ⟨rfl, rfl⟩ := h
      simp [ta_events, sem_event_same, sem_event_wait _ _ _ hv, ta_delay, sem_held_at, discipline]
    · exact absurd h (by simp)
  case saveRubric =>
    split at h <;> simp only [Option.some.injEq, Prod.mk.injEq] at h <;>
      obtain ⟨rfl, rfl⟩ := h <;>
      simp [ta_events, sem_event_same, ta_delay, sem_held_at]
  case signalRubric | signalSelect | signalMark | signalExamBreak | signalExam =>
    simp only [Option.some.injEq, Prod.mk.injEq] at h
    obtain ⟨rfl, rfl⟩ := h
    simp [ta_events, sem_event_same, sem_event_signal, ta_delay, sem_held_at, discipline]
  case scan | markCorrected | advLoad =>
    simp only [Option.some.injEq, Prod.mk.injEq] at h
    obtain ⟨rfl, rfl⟩ := h
    simp [ta_events, sem_event_same, ta_delay, sem_held_at]
  case finished => exact absurd h (by simp)

/-- Along every path of a worker the discipline holds, from the semaphore
held where the path starts to the one held where it ends. -/
theorem worker_path_discipline (env : Env) (path : List (Session × Nat)) :
    ∀ (w wf : Worker) (events : List Event), worker_path env w path = some (wf, events) →
      discipline (sem_held_at w.pc) events = some (sem_held_at wf.pc) := by
  induction path with
  | nil =>
    intro w wf events h
    simp only [worker_path, Option.some.injEq, Prod.mk.injEq] at h
    obtain ⟨rfl, rfl⟩ := h
    cases sem_held_at w.pc <;> rfl
  | cons x rest ih =>
    intro w wf events h
    obtain ⟨s, r⟩ := x
    simp only [worker_path] at h
    cases hstep : ta_step env s w r with
    | none => simp [hstep] at h
    | some p =>
      obtain ⟨s1, w1⟩ := p
      simp only [hstep] at h
      cases hrest : worker_path env w1 rest with
      | none => simp [hrest] at h
      | some p2 =>
        obtain ⟨wf2, ev2⟩ := p2
        simp only [hrest, Option.some.injEq, Prod.mk.injEq] at h
        obtain ⟨rfl, rfl⟩ := h
        rw [ta_step_discipline env s s1 w w1 r hstep ev2]
        exact ih w1 wf2 ev2 hrest

/-- Events that keep the discipline and end with no semaphore held: their
semaphore operations are pairs `wait(s); signal(s)`. -/
theorem discipline_pairs (events : List Event) :
    (discipline none events = some none → wait_signal_pairs (sem_operations events) = true) ∧
    (∀ s, discipline (some s) events = some none →
      wait_signal_pairs (Event.wait s :: sem_operations events) = true) := by
  induction events with
  | nil =>
    refine ⟨fun _ => rfl, fun s h => ?_⟩
    simp [discipline] at h
  | cons e rest ih =>
    cases e with
    | wait t =>
      refine ⟨fun h => ?_, fun s h => ?_⟩
      · simp only [discipline] at h
        exact ih.2 t h
      · simp [discipline] at h
    | signal t =>
      refine ⟨fun h => ?_, fun s h => ?_⟩
      · simp [discipline] at h
      · simp only [discipline] at h
        split_ifs at h with hst
        subst hst
        simp only [sem_operations, wait_signal_pairs, decide_True, Bool.true_and]
        exact ih.1 h
    | sleep a b =>
      refine ⟨fun h => ?_, fun s h => ?_⟩
      · simp only [discipline] at h
        split_ifs at h
        · exact ih.1 h
        · exact ih.1 h
      · simp only [discipline] at h
        split_ifs at h
        · exact ih.2 s h
        · exact ih.2 s h

/-- C12: every path of one worker through `ta`, from its start, whatever the
sessions it finds before its transitions and whatever `rand()` gives.  The
events of the path keep the locking discipline: a semaphore is acquired only
while none is held and released only while it is the one held, the review
delay `sleep_ms(500, 1000)` runs with the rubric semaphore held and nothing
else, the marking delay `sleep_ms(1000, 2000)` runs with no semaphore held.
When the worker has left its loop it holds no semaphore and its semaphore
operations are a concatenation of pairs `wait(s); signal(s)`. -/
theorem ta_locking_discipline (env : Env) (w0 wf : Worker) (path : List (Session × Nat))
    (events : List Event) (hstart : w0.pc = PC.checkTerm)
    (hpath : worker_path env w0 path = some (wf, events)) :
    (∃ held, discipline none events = some held ∧ held = sem_held_at wf.pc ∧
      (wf.pc = PC.finished → held = none)) ∧
    (wf.pc = PC.finished → wait_signal_pairs (sem_operations events) = true) := by
  have hd := worker_path_discipline env path w0 wf events hpath
  rw [hstart] at hd
  have hnone : sem_held_at PC.checkTerm = none := rfl
  rw [hnone] at hd
  refine ⟨⟨sem_held_at wf.pc, hd, rfl, fun hf => by rw [hf]; rfl⟩, fun hf => ?_⟩
  apply (discipline_pairs events).1
  rw [hd, hf]
  rfl

/-- Witness for C12: the sample path, on which the worker reviews three
non-empty rubric lines, marks a question, finds the exam complete and leaves
at the `no more exams` exit. -/
theorem ta_locking_discipline_witness :
    worker_path one_exam fresh_worker sample_path =
      some ({ pc := PC.finished, q := 5, picked_q := -1, all_done := 1, next_exam := 1 },
        [Event.wait Sem.rubric, Event.sleep 500 1000, Event.sleep 500 1000, Event.sleep 500 1000,
          Event.signal Sem.rubric, Event.wait Sem.question, Event.signal Sem.question,
          Event.sleep 1000 2000, Event.wait Sem.question, Event.signal Sem.question,
          Event.wait Sem.question, Event.signal Sem.question, Event.wait Sem.exam,
          Event.signal Sem.exam]) ∧
    wait_signal_pairs (sem_operations
      [Event.wait Sem.rubric, Event.sleep 500 1000, Event.sleep 500 1000, Event.sleep 500 1000,
        Event.signal Sem.rubric, Event.wait Sem.question, Event.signal Sem.question,
        Event.sleep 1000 2000, Event.wait Sem.question, Event.signal Sem.question,
        Event.wait Sem.question, Event.signal Sem.question, Event.wait Sem.exam,
        Event.signal Sem.exam]) = true :=
  ⟨rfl, (ta_locking_discipline one_exam fresh_worker _ sample_path _ rfl rfl).2 rfl⟩

/-! ### Mutual exclusion -/

/-- A transition of a worker moves the rubric semaphore and the worker's
being inside the rubric section together, and leaves the workers alone. -/
theorem ta_step_rubric_count (env : Env) (s s1 : Session) (w w1 : Worker) (r : Nat)
    (h : ta_step env s w r = some (s1, w1)) :
    s1.sem_rubric + (if in_rubric_section w1 then 1 else 0) =
      s.sem_rubric + (if in_rubric_section w then 1 else 0) ∧
    s1.workers = s.workers := by
  obtain ⟨pc, q, picked, done, next⟩ := w
  cases pc <;> simp only [ta_step] at h
  case checkTerm | innerTest | checkTermMarked | advTest | advRead | checkTermLoaded | review |
      afterScan =>
    split_ifs at h <;> simp only [Option.some.injEq, Prod.mk.injEq] at h <;>
      obtain ⟨rfl, rfl⟩ := h <;>
      simp [in_rubric_section]
  case waitRubric =>
    split at h
    · rename_i v hv
      simp only [Option.some.injEq, Prod.mk.injEq] at h
      obtain ⟨rfl, rfl⟩ := h
      unfold sem_wait_one at hv
      split_ifs at hv with hpos
      simp only [Option.some.injEq] at hv
      subst hv
      simp only [in_rubric_section, if_true, Bool.false_eq_true, if_false, and_true]
      omega
    · exact absurd h (by simp)
  case waitSelect | waitMark | waitExam =>
    split at h
    · simp only [Option.some.injEq, Prod.mk.injEq] at h
      obtain ⟨rfl, rfl⟩ := h
      simp [in_rubric_section]
    · exact absurd h (by simp)
  case saveRubric =>
    split at h <;> simp only [Option.some.injEq, Prod.mk.injEq] at h <;>
      obtain ⟨rfl, rfl⟩ := h <;>
      simp [in_rubric_section]
  case signalRubric | signalSelect | signalMark | signalExamBreak | signalExam | scan |
      markCorrected | advLoad =>
    simp only [Option.some.injEq, Prod.mk.injEq] at h
    obtain ⟨rfl, rfl⟩ := h
    simp [in_rubric_section, sem_signal_one]
  case finished => exact absurd h (by simp)

/-- The rubric semaphore and the number of workers inside the rubric section
add up to the same along every transition of the session. -/
theorem step_rubric_count (env : Env) (s s1 : Session) (id r : Nat)
    (h : step env s id r = some s1) :
    s1.sem_rubric + s1.workers.countP in_rubric_section =
      s.sem_rubric + s.workers.countP in_rubric_section := by
  unfold step at h
  cases hw : s.workers[id]? with
  | none => simp [hw] at h
  | some w =>
    simp only [hw] at h
    cases hta : ta_step env s w r with
    | none => simp [hta] at h
    | some p =>
      obtain ⟨s2, w2⟩ := p
      simp only [hta, Option.some.injEq] at h
      obtain ⟨e1, e2⟩ := ta_step_rubric_count env s s2 w w2 r hta
      have hid : id < s.workers.length := by
        by_contra hcon
        rw [List.getElem?_eq_none (by omega)] at hw
        exact absurd hw (by simp)
      have hget : s.workers[id] = w := by
        rw [List.getElem?_eq_getElem hid] at hw
        exact Option.some.inj hw
      have hle := List.boole_getElem_le_countP in_rubric_section s.workers id hid
      have hset := List.countP_set in_rubric_section s.workers id w2 hid
      rw [hget] at hle hset
      rw [← h]
      simp only [e2, hset]
      omega

/-- In every session that `main` starts and every schedule: the rubric
semaphore is free with no worker inside the rubric section, or taken with
exactly one inside. -/
theorem rubric_semaphore_count (env : Env) (rubric : Option (List Nat)) (num_TAs : Nat)
    (s0 : Session) (hinit : main_init env rubric num_TAs = some s0)
    (schedule : List (Nat × Nat)) : ∀ (s : Session), run env s0 schedule = some s →
      s.sem_rubric + s.workers.countP in_rubric_section = 1 := by
  have h0 : s0.sem_rubric + s0.workers.countP in_rubric_section = 1 := by
    unfold main_init at hinit
    split_ifs at hinit
    simp only [Option.some.injEq] at hinit
    rw [← hinit]
    simp [List.countP_replicate, in_rubric_section]
  have hrun : ∀ (sched : List (Nat × Nat)) (a b : Session), run env a sched = some b →
      b.sem_rubric + b.workers.countP in_rubric_section =
        a.sem_rubric + a.workers.countP in_rubric_section := by
    intro sched
    induction sched with
    | nil =>
      intro a b h
      simp only [run, Option.some.injEq] at h
      rw [h]
    | cons x rest ih =>
      intro a b h
      obtain ⟨id, r⟩ := x
      simp only [run] at h
      cases hstep : step env a id r with
      | none => simp [hstep] at h
      | some a1 =>
        rw [hstep] at h
        rw [ih a1 b h, step_rubric_count env a a1 id r hstep]
  intro s hs
  rw [hrun schedule s0 s hs, h0]

/-- The rubric half of C11 holds: in every session that `main` starts, with
any number of workers and along every schedule, at most one worker is inside
the rubric review-and-save section. -/
theorem rubric_section_exclusive (env : Env) (rubric : Option (List Nat)) (num_TAs : Nat)
    (s0 s : Session) (hinit : main_init env rubric num_TAs = some s0)
    (schedule : List (Nat × Nat)) (hrun : run env s0 schedule = some s) :
    s.workers.countP in_rubric_section ≤ 1 := by
  have h := rubric_semaphore_count env rubric num_TAs s0 hinit schedule s hrun
  omega

/-- C11: a schedule of two workers on three exams on which both workers have
picked question 0 and neither has marked it.  After the double advance of C2
worker 0 picks question 0 of exam 1 and starts marking; worker 1 loads exam 2,
which resets the table under worker 0, reviews the rubric, scans and picks
question 0 as well.  Both now stand between their scan and their line 275
with `picked_q = 0`. -/
theorem same_question_picked_twice :
    (session_after three_exams (both_done_worker0_advances ++ List.replicate 16 (0, 1))).map observe =
      some ([PC.waitMark, PC.waitExam], [0, -1], [49, 48, 48, 50], [1, 0, 0, 0, 0], 1, 0) ∧
    (session_after three_exams (both_done_worker0_advances ++ List.replicate 16 (0, 1) ++
        List.replicate 3 (1, 1))).map observe =
      some ([PC.waitMark, PC.signalExam], [0, -1], [49, 48, 48, 51], [0, 0, 0, 0, 0], 2, 0) ∧
    (session_after three_exams (both_done_worker0_advances ++ List.replicate 16 (0, 1) ++
        List.replicate 18 (1, 1))).map observe =
      some ([PC.waitMark, PC.signalSelect], [0, 0], [49, 48, 48, 51], [1, 0, 0, 0, 0], 2, 0) ∧
    (session_after three_exams (both_done_worker0_advances ++ List.replicate 16 (0, 1) ++
        List.replicate 18 (1, 1))).map (fun s => s.workers.map picked_question) =
      some [some 0, some 0] := by
  exact ⟨rfl, rfl, rfl, rfl⟩

end A3P2
